import Mathlib

set_option maxHeartbeats 1000000
set_option maxRecDepth 10000

/- Verification of the chess game-state reducer.

   The definitions below are a shallow embedding of the reducer module of the
   repository (createChessState, chessReducer, getCompleteFlag, getBoard and the
   supporting types).  JavaScript objects keyed by square names are modelled as
   association lists whose stored values may be undefined (Option); JavaScript
   numbers carrying times are modelled as rationals; JavaScript truthiness of the
   values actually tested by the code (optional numbers, optional strings, the
   optional taken field) is modelled explicitly.

   The external chess.js rules engine is out of scope of the repository; it is
   modelled at its interface boundary (spec section 6) as an oracle giving, for
   every stack of applied moves, the accepted move for an input, the side to move,
   the boolean terminal predicates, and the board snapshot.  The engine handle that
   the reducer mutates in lock-step is the stack of applied moves, threaded through
   every transition. -/

inductive Color where
  | w
  | b
deriving DecidableEq, Repr

inductive PieceSymbol where
  | p
  | n
  | b
  | r
  | q
  | k
deriving DecidableEq, Repr

inductive PlayerKind where
  | localPlayer
  | bot
deriving DecidableEq, Repr

structure Player where
  name : String
  type : PlayerKind
deriving DecidableEq, Repr

structure Players where
  w : Player
  b : Player
deriving DecidableEq, Repr

/-- Association list with String keys: the model of a JavaScript object. -/
def aget {α : Type} : List (String × α) → String → Option α
  | [], _ => none
  | (k', v) :: rest, k => if k' = k then some v else aget rest k

/-- Assignment obj[k] = v: replaces the stored value if the key is present,
    appends the key otherwise. -/
def aset {α : Type} : List (String × α) → String → α → List (String × α)
  | [], k, v => [(k, v)]
  | (k', v') :: rest, k, v => if k' = k then (k', v) :: rest else (k', v') :: aset rest k v

/-- The delete operator: removes the key. -/
def adel {α : Type} (d : List (String × α)) (k : String) : List (String × α) :=
  d.filter (fun kv => !(kv.1 == k))

/-- The Identity Map (pieceUids): object from square name to piece identifier.
    A stored value of none models a key holding undefined. -/
abbrev PieceUids : Type := List (String × Option String)

/-- Reading pieceUids[k]: a missing key and a key holding undefined both read as
    undefined. -/
def oget (d : PieceUids) (k : String) : Option String :=
  (aget d k).getD none

def oset (d : PieceUids) (k : String) (v : Option String) : PieceUids :=
  aset d k v

def odel (d : PieceUids) (k : String) : PieceUids :=
  adel d k

/-- Engine board cell as returned by chess.board(): {type, color, square}. -/
structure EngineCell where
  type : PieceSymbol
  color : Color
  square : String
deriving DecidableEq, Repr

/-- Board projection cell produced by getBoard: {type, team, uid}. -/
structure BCell where
  type : PieceSymbol
  team : Color
  uid : Option String
deriving DecidableEq, Repr

/-- The Move object reported by the rules engine (the fields the reducer reads). -/
structure MoveRec where
  from' : String
  to' : String
  promotion : Option PieceSymbol
  captured : Option PieceSymbol
  flags : String
  color : Color
deriving DecidableEq, Repr

/-- The (from, to, promotion) triple handed to chess.move. -/
structure MoveInput where
  from' : String
  to' : String
  promotion : Option PieceSymbol
deriving DecidableEq, Repr

/-- Identity Undo Record: one entry of pieceUidTracker. -/
structure MoveUID where
  taken : Option String
deriving DecidableEq, Repr

/-- Exact rational arithmetic for clock values, kept unnormalized so that every
    operation reduces by computation.  The denominator is positive for every value
    the program constructs; comparisons against zero only read the numerator and
    are exact for positive denominators. -/
structure Q where
  num : Int
  den : Nat
deriving DecidableEq, Repr

def Q.ofNat (n : Nat) : Q := { num := (n : Int), den := 1 }

instance instOfNatQ (n : Nat) : OfNat Q n := ⟨Q.ofNat n⟩

def Q.sub (a b : Q) : Q := { num := a.num * b.den - b.num * a.den, den := a.den * b.den }

def Q.mul (a b : Q) : Q := { num := a.num * b.num, den := a.den * b.den }

def Q.div (a b : Q) : Q :=
  if 0 ≤ b.num then { num := a.num * b.den, den := a.den * b.num.toNat }
  else { num := -(a.num * b.den), den := a.den * (-b.num).toNat }

/-- Value order a ≤ b, exact when both denominators are positive. -/
def Q.ble (a b : Q) : Bool := a.num * b.den ≤ b.num * a.den

/-- Value equality, exact when both denominators are positive. -/
def Q.valEq (a b : Q) : Bool := a.num * b.den == b.num * a.den

/-- Value test against zero (the numerator sign decides for positive denominator). -/
def Q.isZero (a : Q) : Bool := a.num == 0

instance : Sub Q := ⟨Q.sub⟩

instance : Mul Q := ⟨Q.mul⟩

instance : Div Q := ⟨Q.div⟩

/-- Per-side clock: optional started-at timestamp and remaining seconds. -/
structure Timer where
  set : Option Q
  time : Q
deriving DecidableEq, Repr

structure Timers where
  w : Timer
  b : Timer
deriving DecidableEq, Repr

structure Captured where
  w : List PieceSymbol
  b : List PieceSymbol
deriving DecidableEq, Repr

structure Checks where
  w : Bool
  b : Bool
deriving DecidableEq, Repr

def Captured.get (c : Captured) (col : Color) : List PieceSymbol :=
  match col with
  | .w => c.w
  | .b => c.b

def Captured.setAt (c : Captured) (col : Color) (l : List PieceSymbol) : Captured :=
  match col with
  | .w => { c with w := l }
  | .b => { c with b := l }

def Checks.setAt (c : Checks) (col : Color) (v : Bool) : Checks :=
  match col with
  | .w => { c with w := v }
  | .b => { c with b := v }

/-- ChessState: the reducer's state record. -/
structure ChessState where
  timers : Timers
  moves : Option (List MoveRec)
  captured : Captured
  board : List (List (Option BCell))
  turn : Color
  check : Checks
  fen : String
  complete : Option String
  redoStack : List MoveRec
  pieceUids : PieceUids
  pieceUidTracker : List MoveUID
  paused : Bool
  players : Players
deriving DecidableEq, Repr

/-- The rules-engine boundary (spec section 6), as a function of the stack of
    applied moves.  moveOf returns the accepted Move object or none for an illegal
    move; turnOf, checkOf and the terminal predicates are the engine queries; boardOf
    is the board snapshot; fenOf the serialized position. -/
structure Oracle where
  moveOf : List MoveRec → MoveInput → Option MoveRec
  turnOf : List MoveRec → Color
  checkOf : List MoveRec → Bool
  checkmateOf : List MoveRec → Bool
  drawOf : List MoveRec → Bool
  insufficientOf : List MoveRec → Bool
  threefoldOf : List MoveRec → Bool
  boardOf : List MoveRec → List (List (Option EngineCell))
  fenOf : List MoveRec → String

/-- move.flags.indexOf(c) >= 0. -/
def flagHas (f : String) (c : Char) : Bool :=
  f.data.contains c

/-- JavaScript truthiness of an optional number: undefined and 0 are falsy. -/
def truthyN : Option Q → Bool
  | none => false
  | some v => !(Q.isZero v)

/-- JavaScript truthiness of an optional string: undefined and the empty string
    are falsy. -/
def truthyS : Option String → Bool
  | none => false
  | some s => !(s == "")

/-- Truthiness of update && update.taken in the undo branch. -/
def truthyTaken : Option MoveUID → Bool
  | none => false
  | some mu => truthyS mu.taken

/-- getCompleteFlag: concatenates the single-character terminal tags in the fixed
    source order t, c, d, m, r and returns undefined for the empty result. -/
def getCompleteFlag (o : Oracle) (stack : List MoveRec) (outOfTime : Bool) : Option String :=
  let r1 := if outOfTime then "" ++ "t" else ""
  let r2 := if o.checkmateOf stack then r1 ++ "c" else r1
  let r3 := if o.drawOf stack then r2 ++ "d" else r2
  let r4 := if o.insufficientOf stack then r3 ++ "m" else r3
  let r5 := if o.threefoldOf stack then r4 ++ "r" else r4
  if r5.length = 0 then none else some r5

/-- getBoard: the board projection from the engine snapshot and the Identity Map. -/
def getBoard (grid : List (List (Option EngineCell))) (uids : PieceUids) :
    List (List (Option BCell)) :=
  grid.map (fun row => row.map (fun cell =>
    cell.map (fun v => { type := v.type, team := v.color, uid := oget uids v.square })))

/-- createChessState: fresh state; piece identifiers are the flat indices of the
    engine's initial board snapshot, assigned square by square. -/
def createChessState (o : Oracle) (length : Q) (players : Players) : ChessState :=
  let grid := o.boardOf []
  let pieceUids := (grid.flatten.enum).foldl
    (fun d icell =>
      match icell.2 with
      | none => d
      | some c => oset d c.square (some (toString icell.1)))
    ([] : PieceUids)
  { board := getBoard grid pieceUids
    timers := { w := { set := none, time := length * 60 }, b := { set := none, time := length * 60 } }
    moves := some []
    captured := { w := [], b := [] }
    turn := Color.w
    check := { w := false, b := false }
    fen := o.fenOf []
    complete := none
    redoStack := []
    pieceUids := pieceUids
    pieceUidTracker := []
    paused := false
    players := players }

/-- move.captured || move.flags.indexOf('e') >= 0: the capture-like branch guard. -/
def capb (rec : MoveRec) : Bool :=
  rec.captured.isSome || flagHas rec.flags 'e'

/-- String.mk of the rank character move.from[1]. -/
def rankOf (sq : String) : String :=
  String.mk (sq.data.drop 1)

def fileOf (sq : String) : String :=
  String.mk (sq.data.take 1)

def kCastleFrom (rec : MoveRec) : String := "h" ++ rankOf rec.from'
def kCastleTo (rec : MoveRec) : String := "f" ++ rankOf rec.from'
def qCastleFrom (rec : MoveRec) : String := "a" ++ rankOf rec.from'
def qCastleTo (rec : MoveRec) : String := "d" ++ rankOf rec.from'

/-- Identity Tracker, forward direction: the pieceUids mutation of the accepted
    move branch, returning the updated map and the pushed tracker entry. -/
def trackMove (uids : PieceUids) (rec : MoveRec) : PieceUids × MoveUID :=
  if capb rec then
    let taken := oget uids rec.to'
    let u := odel (oset uids rec.to' (oget uids rec.from')) rec.from'
    (u, { taken := taken })
  else if flagHas rec.flags 'k' then
    let u1 := odel (oset uids rec.to' (oget uids rec.from')) rec.from'
    let u2 := odel (oset u1 (kCastleTo rec) (oget u1 (kCastleFrom rec))) (kCastleFrom rec)
    (u2, { taken := none })
  else if flagHas rec.flags 'q' then
    let u1 := odel (oset uids rec.to' (oget uids rec.from')) rec.from'
    let u2 := odel (oset u1 (qCastleTo rec) (oget u1 (qCastleFrom rec))) (qCastleFrom rec)
    (u2, { taken := none })
  else
    (odel (oset uids rec.to' (oget uids rec.from')) rec.from', { taken := none })

/-- Identity Tracker, reversal on undo, given the popped tracker entry. -/
def untrackMove (uids : PieceUids) (rec : MoveRec) (update : Option MoveUID) : PieceUids :=
  if capb rec then
    let u1 := oset uids rec.from' (oget uids rec.to')
    if truthyTaken update then
      oset u1 rec.to' (match update with
        | some mu => mu.taken
        | none => none)
    else
      odel u1 rec.to'
  else if flagHas rec.flags 'k' then
    let u1 := odel (oset uids rec.from' (oget uids rec.to')) rec.to'
    odel (oset u1 (kCastleFrom rec) (oget u1 (kCastleTo rec))) (kCastleTo rec)
  else if flagHas rec.flags 'q' then
    let u1 := odel (oset uids rec.from' (oget uids rec.to')) rec.to'
    odel (oset u1 (qCastleFrom rec) (oget u1 (qCastleTo rec))) (qCastleTo rec)
  else
    odel (oset uids rec.from' (oget uids rec.to')) rec.to'

/-- Array.prototype.indexOf: first index of c, or -1. -/
def jsIndexOf : List PieceSymbol → PieceSymbol → Int
  | [], _ => -1
  | a :: l, c =>
    if a = c then 0
    else
      let r := jsIndexOf l c
      if r = -1 then -1 else r + 1

/-- filter((_, i) => i !== index), with i counted from the given start. -/
def filterIdxNeAux {α : Type} (i : Int) (idx : Int) : List α → List α
  | [] => []
  | a :: l => if i = idx then filterIdxNeAux (i + 1) idx l else a :: filterIdxNeAux (i + 1) idx l

def filterIdxNe {α : Type} (l : List α) (idx : Int) : List α :=
  filterIdxNeAux 0 idx l

/-- The captured-set removal performed by the undo case. -/
def jsRemoveFirst (l : List PieceSymbol) (c : PieceSymbol) : List PieceSymbol :=
  filterIdxNe l (jsIndexOf l c)

/-- chargeTimer: the endMove finalization of the side whose clock may have been
    running: subtract elapsed seconds when the timestamp is truthy, clear it. -/
def chargeTimer (tm : Timer) (now : Q) : Timer :=
  match tm.set with
  | some sv => if Q.isZero sv then { set := none, time := tm.time }
               else { set := none, time := tm.time - (now - sv) / 1000 }
  | none => { set := none, time := tm.time }

/-- The checkTimers case of chessReducer. -/
def checkTimersStep (o : Oracle) (stack : List MoveRec) (s : ChessState) (now : Q) :
    ChessState :=
  let sel := if truthyN s.timers.w.set then s.timers.w else s.timers.b
  match sel.set with
  | none => s
  | some sv =>
    if Q.isZero sv then s
    else
      let elapsed := (now - sv) / 1000
      if Q.ble (sel.time - elapsed) 0 then
        { s with
          complete := getCompleteFlag o stack true
          timers :=
            { w := { set := none, time := if truthyN s.timers.w.set then 0 else s.timers.w.time }
              b := { set := none, time := if truthyN s.timers.b.set then 0 else s.timers.b.time } } }
      else s

/-- The endMove case of chessReducer: switch the running clock to the new side to
    move, recompute turn, board projection, check flags and completion flag. -/
def endMoveStep (o : Oracle) (stack : List MoveRec) (s : ChessState) (now : Q) :
    ChessState :=
  let turn' := o.turnOf stack
  let timers' : Timers :=
    if turn' = Color.b then
      { w := chargeTimer s.timers.w now, b := { set := some now, time := s.timers.b.time } }
    else
      { w := { set := some now, time := s.timers.w.time }, b := chargeTimer s.timers.b now }
  { s with
    timers := timers'
    turn := turn'
    board := getBoard (o.boardOf stack) s.pieceUids
    check := Checks.setAt { w := false, b := false } turn' (o.checkOf stack)
    complete := getCompleteFlag o stack false }

/-- The move case of chessReducer.  The engine handle is the stack of applied
    moves, returned alongside the new state. -/
def moveStep (o : Oracle) (p : ChessState × List MoveRec) (inp : MoveInput) (now : Q) :
    ChessState × List MoveRec :=
  let s := checkTimersStep o p.2 p.1 now
  if truthyS s.complete then (s, p.2)
  else
    let s := { s with redoStack := ([] : List MoveRec) }
    match o.moveOf p.2 inp with
    | none => (s, p.2)
    | some rec =>
      let stack' := rec :: p.2
      let tu := trackMove s.pieceUids rec
      let s :=
        { s with
          pieceUids := tu.1
          pieceUidTracker := s.pieceUidTracker ++ [tu.2]
          moves := some ((s.moves.getD []) ++ [rec])
          captured :=
            match rec.captured with
            | some c => Captured.setAt s.captured rec.color ((s.captured.get rec.color) ++ [c])
            | none => s.captured }
      (endMoveStep o stack' s now, stack')

/-- The undo case of chessReducer. -/
def undoStep (o : Oracle) (p : ChessState × List MoveRec) (now : Q) :
    ChessState × List MoveRec :=
  let s := checkTimersStep o p.2 p.1 now
  if truthyS s.complete then (s, p.2)
  else
    match p.2 with
    | [] => (s, p.2)
    | rec :: stack' =>
      match s.moves with
      | none => (s, stack')
      | some ms =>
        let s := { s with moves := some ms.dropLast }
        let update := s.pieceUidTracker.getLast?
        let s := { s with pieceUidTracker := s.pieceUidTracker.dropLast }
        let s := { s with pieceUids := untrackMove s.pieceUids rec update }
        let s :=
          match rec.captured with
          | some c =>
            let oldCaptured := s.captured.get rec.color
            Captured.setAt s.captured rec.color (filterIdxNe oldCaptured (jsIndexOf oldCaptured c))
              |> (fun cp => { s with captured := cp })
          | none => s
        let s := { s with redoStack := s.redoStack ++ [rec] }
        (endMoveStep o stack' s now, stack')

/-- The redo case of chessReducer: pop the most recent redo entry, replay it
    through the move case, restore the remaining redo entries afterwards. -/
def redoStep (o : Oracle) (p : ChessState × List MoveRec) (now : Q) :
    ChessState × List MoveRec :=
  let s := checkTimersStep o p.2 p.1 now
  if truthyS s.complete then (s, p.2)
  else
    match s.redoStack.getLast? with
    | none => (s, p.2)
    | some rec =>
      let s := { s with redoStack := s.redoStack.dropLast }
      let redo := s.redoStack
      let r := moveStep o (s, p.2) { from' := rec.from', to' := rec.to', promotion := rec.promotion } now
      ({ r.1 with redoStack := redo }, r.2)

/-- The public action surface of the reducer. -/
inductive ChessAction where
  | move (from' to' : String) (promotion : Option PieceSymbol) (time : Q)
  | undo (time : Q)
  | redo (time : Q)
  | pause (time : Option Q)
  | checkTimers (time : Q)
deriving DecidableEq, Repr

/-- chessReducer: dispatch.  The pause case is the unimplemented no-op. -/
def chessReducer (o : Oracle) (p : ChessState × List MoveRec) (a : ChessAction) :
    ChessState × List MoveRec :=
  match a with
  | .move f t pr tm => moveStep o p { from' := f, to' := t, promotion := pr } tm
  | .undo tm => undoStep o p tm
  | .redo tm => redoStep o p tm
  | .pause _ => p
  | .checkTimers tm => (checkTimersStep o p.2 p.1 tm, p.2)

def runActs (o : Oracle) (p : ChessState × List MoveRec) (acts : List ChessAction) :
    ChessState × List MoveRec :=
  acts.foldl (chessReducer o) p

/- Concrete instances of the rules-engine boundary, used to evaluate the reducer
   on real game traces.  A script oracle plays back a fixed list of accepted
   moves; its board snapshots replay the standard rules-engine board mutation
   (relocation, capture removal, en-passant removal, rook relocation). -/

/-- Occupancy of the engine board: square to piece and side. -/
abbrev Occ : Type := List (String × (PieceSymbol × Color))

/-- The rules engine's board mutation for one accepted move. -/
def applyOccMove (occ : Occ) (rec : MoveRec) : Occ :=
  match aget occ rec.from' with
  | none => occ
  | some pc =>
    let moved : PieceSymbol × Color :=
      match rec.promotion with
      | some pr => (pr, pc.2)
      | none => pc
    let o1 := aset (adel occ rec.from') rec.to' moved
    let o2 := if flagHas rec.flags 'e' then adel o1 (fileOf rec.to' ++ rankOf rec.from') else o1
    let o3 :=
      if flagHas rec.flags 'k' then
        aset (adel o2 ("h" ++ rankOf rec.from')) ("f" ++ rankOf rec.from') (PieceSymbol.r, rec.color)
      else o2
    if flagHas rec.flags 'q' then
      aset (adel o3 ("a" ++ rankOf rec.from')) ("d" ++ rankOf rec.from') (PieceSymbol.r, rec.color)
    else o3

def filesL : List String := ["a", "b", "c", "d", "e", "f", "g", "h"]

def ranksL : List String := ["8", "7", "6", "5", "4", "3", "2", "1"]

/-- The engine board snapshot (rank 8 first, files a to h) from an occupancy. -/
def gridOf (occ : Occ) : List (List (Option EngineCell)) :=
  ranksL.map (fun r => filesL.map (fun f =>
    (aget occ (f ++ r)).map (fun pc => { type := pc.1, color := pc.2, square := f ++ r })))

def backRank (c : Color) (r : String) : Occ :=
  [("a" ++ r, (.r, c)), ("b" ++ r, (.n, c)), ("c" ++ r, (.b, c)), ("d" ++ r, (.q, c)),
   ("e" ++ r, (.k, c)), ("f" ++ r, (.b, c)), ("g" ++ r, (.n, c)), ("h" ++ r, (.r, c))]

def pawnRank (c : Color) (r : String) : Occ :=
  filesL.map (fun f => (f ++ r, (PieceSymbol.p, c)))

/-- The standard initial chess position. -/
def stdInitOcc : Occ :=
  backRank .b "8" ++ pawnRank .b "7" ++ pawnRank .w "2" ++ backRank .w "1"

/-- A concrete rules engine that accepts exactly the scripted game: at stack depth
    i it accepts the input matching the i-th scripted move; turn alternates from
    white; no position is check or terminal; boards replay the script. -/
def scriptOracle (initOcc : Occ) (script : List MoveRec) : Oracle where
  moveOf stack inp :=
    match script.get? stack.length with
    | some rec =>
      if inp = { from' := rec.from', to' := rec.to', promotion := rec.promotion } then some rec
      else none
    | none => none
  turnOf stack := if stack.length % 2 = 0 then Color.w else Color.b
  checkOf _ := false
  checkmateOf _ := false
  drawOf _ := false
  insufficientOf _ := false
  threefoldOf _ := false
  boardOf stack := gridOf (stack.reverse.foldl applyOccMove initOcc)
  fenOf _ := "start"

def stdPlayers : Players :=
  { w := { name := "White", type := .localPlayer }, b := { name := "Black", type := .localPlayer } }

def moveActOf (r : MoveRec) (t : Q) : ChessAction :=
  .move r.from' r.to' r.promotion t

def movesAt (rs : List MoveRec) (t : Q) : List ChessAction :=
  rs.map (fun r => moveActOf r t)

/-- Number of distinct identifiers stored in the Identity Map. -/
def distinctUids (d : PieceUids) : Nat :=
  ((d.filterMap (fun kv => kv.2)).dedup).length

/-- Number of occupied squares of an engine board snapshot. -/
def occupiedCount (grid : List (List (Option EngineCell))) : Nat :=
  (grid.map (fun row => (row.filterMap id).length)).sum

/-- Game 1.e4 a6 2.e5 d5 3.exd6 (en passant): the last move captures the d5 pawn
    en passant on the empty square d6. -/
def epGame : List MoveRec :=
  [⟨"e2", "e4", none, none, "b", .w⟩,
   ⟨"a7", "a6", none, none, "n", .b⟩,
   ⟨"e4", "e5", none, none, "n", .w⟩,
   ⟨"d7", "d5", none, none, "b", .b⟩,
   ⟨"e5", "d6", none, some .p, "e", .w⟩]

def epOracle : Oracle := scriptOracle stdInitOcc epGame

def epRun : ChessState × List MoveRec :=
  runActs epOracle (createChessState epOracle 5 stdPlayers, []) (movesAt epGame 1000)

/-- Game 1.e4 d5 2.exd5 Nf6 3.Nc3 Nxd5 4.Nxd5 Qxd5 5.d4 e5 6.dxe5: white has
    captured pawn, knight, pawn (in that order). -/
def capGame : List MoveRec :=
  [⟨"e2", "e4", none, none, "b", .w⟩,
   ⟨"d7", "d5", none, none, "b", .b⟩,
   ⟨"e4", "d5", none, some .p, "c", .w⟩,
   ⟨"g8", "f6", none, none, "n", .b⟩,
   ⟨"b1", "c3", none, none, "n", .w⟩,
   ⟨"f6", "d5", none, some .p, "c", .b⟩,
   ⟨"c3", "d5", none, some .n, "c", .w⟩,
   ⟨"d8", "d5", none, some .n, "c", .b⟩,
   ⟨"d2", "d4", none, none, "b", .w⟩,
   ⟨"e7", "e5", none, none, "b", .b⟩,
   ⟨"d4", "e5", none, some .p, "c", .w⟩]

def capOracle : Oracle := scriptOracle stdInitOcc capGame

def capInit : ChessState × List MoveRec := (createChessState capOracle 5 stdPlayers, [])

def capMoves : List ChessAction := movesAt capGame 1000

def capRun10 : ChessState × List MoveRec := runActs capOracle capInit (capMoves.take 10)

def capRun11 : ChessState × List MoveRec := runActs capOracle capInit capMoves

def capRun12 : ChessState × List MoveRec :=
  runActs capOracle capInit (capMoves ++ [.undo 1000])

def capRun13 : ChessState × List MoveRec :=
  runActs capOracle capInit (capMoves ++ [.undo 1000, .redo 1000])

/-- Game 1.e4 e5 with White moving at t = 0 ms and Black at t = 2000 ms. -/
def clkGame : List MoveRec :=
  [⟨"e2", "e4", none, none, "b", .w⟩,
   ⟨"e7", "e5", none, none, "b", .b⟩]

def clkOracle : Oracle := scriptOracle stdInitOcc clkGame

def clkRun : ChessState × List MoveRec :=
  runActs clkOracle (createChessState clkOracle 5 stdPlayers, [])
    [.move "e2" "e4" none 0, .move "e7" "e5" none 2000]

/-- One-move script used for the illegal-move scenario: after 1.e4 and an undo the
    redo stack is non-empty and the input e2 to e5 is rejected. -/
def c1Oracle : Oracle := scriptOracle stdInitOcc [⟨"e2", "e4", none, none, "b", .w⟩]

def c1Run : ChessState × List MoveRec :=
  runActs c1Oracle (createChessState c1Oracle 5 stdPlayers, [])
    [.move "e2" "e4" none 1000, .undo 1000]

def c1After : ChessState × List MoveRec :=
  moveStep c1Oracle c1Run ⟨"e2", "e5", none⟩ 1000

/-- Game 1.e4 a6 2.e5 d5 3.exd6 Nf6 4.Nc3 Nd5: after the en-passant capture the
    square d5 is empty on the board but still carries the captured pawn's stale
    identifier, and the quiet knight move 4...Nd5 lands on it. -/
def epxGame : List MoveRec :=
  epGame ++
  [⟨"g8", "f6", none, none, "n", .b⟩,
   ⟨"b1", "c3", none, none, "n", .w⟩,
   ⟨"f6", "d5", none, none, "n", .b⟩]

def epxOracle : Oracle := scriptOracle stdInitOcc epxGame

/-- The state reached by the first seven plies, just before 4...Nd5. -/
def epxRun7 : ChessState × List MoveRec :=
  runActs epxOracle (createChessState epxOracle 5 stdPlayers, []) (movesAt (epxGame.take 7) 1000)

/-- That state after the quiet move 4...Nd5 followed by an immediate Undo. -/
def epxAfter : ChessState × List MoveRec :=
  undoStep epxOracle (moveStep epxOracle epxRun7 ⟨"f6", "d5", none⟩ 1000) 1000


/-- Modelled from the spec: the completion tag encoding of section 6 — a single
    string concatenating, in the fixed order timed-out, checkmate, draw,
    insufficient-material, threefold-repetition, one character per condition that
    holds, absent entirely when none holds. -/
def specCompleteTag (timedOut checkmate draw insufficient threefold : Bool) : Option String :=
  let s := String.mk (List.filterMap (fun bc => if bc.1 then some bc.2 else none)
    [(timedOut, 't'), (checkmate, 'c'), (draw, 'd'), (insufficient, 'm'), (threefold, 'r')])
  if s = "" then none else some s

def distinctSq4 (a b c d : String) : Bool :=
  (a != b) && (a != c) && (a != d) && (b != c) && (b != d) && (c != d)

/-- Side conditions under which the tracker's forward update is inverted exactly
    by its reversal: source and destination differ; identifiers are not the empty
    string (empty strings are falsy in the taken test); for a quiet move the
    destination is unoccupied; for castling the four involved squares are distinct
    and destination and rook destination are unoccupied.  All hold for any move
    the rules engine accepts against a map in step with its board. -/
def trackOk (m : PieceUids) (rec : MoveRec) : Bool :=
  (rec.from' != rec.to') &&
  (if capb rec then !(oget m rec.to' == some "")
   else if flagHas rec.flags 'k' then
     distinctSq4 rec.from' rec.to' (kCastleFrom rec) (kCastleTo rec) &&
       (oget m rec.to' == none) && (oget m (kCastleTo rec) == none)
   else if flagHas rec.flags 'q' then
     distinctSq4 rec.from' rec.to' (qCastleFrom rec) (qCastleTo rec) &&
       (oget m rec.to' == none) && (oget m (qCastleTo rec) == none)
   else (oget m rec.to' == none))

/-- Side conditions under which the tracker's reversal is inverted exactly by a
    replay of the forward update, for a map in the post-move position: the source
    square is unoccupied; the popped record matches what the forward update will
    push again.  All hold for states produced by the Move transition. -/
def untrackOk (m : PieceUids) (rec : MoveRec) (e : MoveUID) : Bool :=
  (rec.from' != rec.to') && (oget m rec.from' == none) &&
  (if capb rec then !(e.taken == some "")
   else if flagHas rec.flags 'k' then
     (e.taken == none) &&
       distinctSq4 rec.from' rec.to' (kCastleFrom rec) (kCastleTo rec) &&
       (oget m (kCastleFrom rec) == none)
   else if flagHas rec.flags 'q' then
     (e.taken == none) &&
       distinctSq4 rec.from' rec.to' (qCastleFrom rec) (qCastleTo rec) &&
       (oget m (qCastleFrom rec) == none)
   else (e.taken == none))

/-- For an undone capture, the captured type is present in the capturer's
    Captured Set (true for states produced by the Move transition). -/
def capMemOk (s : ChessState) (rec : MoveRec) : Bool :=
  match rec.captured with
  | some c => (s.captured.get rec.color).contains c
  | none => true

def actTime : ChessAction → Option Q
  | .move _ _ _ t => some t
  | .undo t => some t
  | .redo t => some t
  | .pause _ => none
  | .checkTimers t => some t

/-- The action times (of the actions that carry one) are well formed and
    non-decreasing from the given starting point. -/
def timesMonoB : Q → List ChessAction → Bool
  | _, [] => true
  | tau, a :: rest =>
    match actTime a with
    | none => timesMonoB tau rest
    | some t => Q.ble tau t && decide (0 < t.den) && timesMonoB t rest

/-- Clock-pair invariant: both remaining times are value-nonnegative with positive
    denominators, stored timestamps are well formed, and at most one side has a
    truthy started-at timestamp. -/
def timersOk (tp : Timers) : Prop :=
  0 ≤ tp.w.time.num ∧ 0 < tp.w.time.den ∧ 0 ≤ tp.b.time.num ∧ 0 < tp.b.time.den ∧
  (∀ v : Q, tp.w.set = some v → 0 < v.den) ∧ (∀ v : Q, tp.b.set = some v → 0 < v.den) ∧
  ¬(truthyN tp.w.set = true ∧ truthyN tp.b.set = true)

/-- After a passed time check at the same instant: charging a side with a truthy
    timestamp cannot drive its remaining time negative. -/
def chargeSafeP (tp : Timers) (now : Q) : Prop :=
  (∀ v : Q, tp.w.set = some v → Q.isZero v = false →
    Q.ble (tp.w.time - (now - v) / 1000) 0 = false) ∧
  (∀ v : Q, tp.b.set = some v → Q.isZero v = false →
    Q.ble (tp.b.time - (now - v) / 1000) 0 = false)


/- Concrete inputs for instantiating the clock-safety theorem. -/

def c9o : Oracle := scriptOracle stdInitOcc epGame

def c9pre : List ChessAction := [ChessAction.move "e2" "e4" none 1000]

def c9suf : List ChessAction := [ChessAction.undo 2000]

def c9acts : List ChessAction := c9pre ++ c9suf

def c9s0 : ChessState := createChessState c9o 5 stdPlayers

/- Claim theorems settled by concrete evaluation of the reducer. -/

/-- C1 counterexample: in the state reached by 1.e4 then undo (so the redo stack
    holds one move), the Move transition with the illegal input e2 to e5 does not
    return the input state unchanged: the redo stack has been cleared before the
    rules engine rejected the move. -/
theorem c1_illegal_move_not_noop :
    c1After.1 ≠ c1Run.1 ∧ c1After.1.redoStack = [] ∧ c1Run.1.redoStack ≠ [] :=
  ⟨by decide, by decide, by decide⟩

/-- C2: evaluating the Move transition on the en-passant capture 3.exd6 of the
    game 1.e4 a6 2.e5 d5 3.exd6 exhibits the divergence from the claim: the pushed
    Identity Undo Record's taken field is empty (it was read from the empty
    destination square d6, not from the captured pawn's square d5), and the
    captured pawn's identifier 11 is still present in the Identity Map at d5 even
    though square d5 (board row 3, column 3) is empty after the move. -/
theorem c2_ep_taken_not_sourced_from_pawn_square :
    epRun.1.pieceUidTracker.getLast? = some { taken := none } ∧
    oget epRun.1.pieceUids "d5" = some "11" ∧
    ((epRun.1.board.get? 3).getD []).get? 3 = some none :=
  ⟨by decide, by decide, by decide⟩

/-- C3: after the sequence of legal moves 1.e4 a6 2.e5 d5 3.exd6 (en passant)
    from a fresh game state, the Identity Map holds 32 distinct identifiers while
    the rules engine's board has only 31 occupied squares: the claimed bijection
    is broken. -/
theorem c3_bijection_broken_by_en_passant :
    distinctUids epRun.1.pieceUids = 32 ∧
    occupiedCount (epOracle.boardOf epRun.2) = 31 :=
  ⟨by decide, by decide⟩

/-- C4 counterexample, both divergences on states reached by legal moves.  First,
    the Captured Set: before White's capture 6.dxe5 White's Captured Set is pawn,
    knight; applying the move and then Undo immediately yields knight, pawn (the
    undo removed the earliest matching entry instead of the appended one).  Second,
    the Identity Map: after 1.e4 a6 2.e5 d5 3.exd6 Nf6 4.Nc3 the square d5 still
    carries the stale identifier 11 left behind by the en-passant capture; the
    quiet move 4...Nd5 overwrites that entry without recording it, so Undo deletes
    the d5 entry instead of restoring 11 — the prior Identity Map is not restored
    even though the moves are all legal. -/
theorem c4_prior_state_not_restored :
    capRun10.1.captured.w = [.p, .n] ∧
    capRun12.1.captured.w = [.n, .p] ∧
    capRun12.1.captured.w ≠ capRun10.1.captured.w ∧
    oget epxRun7.1.pieceUids "d5" = some "11" ∧
    oget epxAfter.1.pieceUids "d5" = none ∧
    oget epxAfter.1.pieceUids "d5" ≠ oget epxRun7.1.pieceUids "d5" :=
  ⟨by decide, by decide, by decide, by decide, by decide, by decide⟩

/-- C5 counterexample: in the state before the Undo, White's Captured Set is
    pawn, knight, pawn; after Undo followed by Redo it is knight, pawn, pawn —
    Redo after Undo does not reproduce the pre-Undo state even modulo clock
    timestamps, because the Captured Set order differs. -/
theorem c5_captured_set_reordered_by_undo_redo :
    capRun11.1.captured.w = [.p, .n, .p] ∧
    capRun13.1.captured.w = [.n, .p, .p] ∧
    capRun13.1.captured.w ≠ capRun11.1.captured.w :=
  ⟨by decide, by decide, by decide⟩

/-- C6 counterexample: undoing White's pawn capture when White's Captured Set is
    pawn, knight, pawn removes the first pawn entry, yielding knight, pawn; removing
    the most recent matching entry (the one appended by the undone move) would
    yield pawn, knight. -/
theorem c6_undo_removes_first_matching_entry :
    capRun11.1.captured.w = [.p, .n, .p] ∧
    capRun12.1.captured.w = [.n, .p] ∧
    capRun12.1.captured.w ≠ [.p, .n] :=
  ⟨by decide, by decide, by decide⟩

/-- C7 counterexample: in the 5-minute game with White moving e2 to e4 at t = 0 ms
    and Black moving e7 to e5 at t = 2000 ms, the instant Black's move commits
    White's remaining time is exactly 300 seconds (not 298: no time was ever
    charged to White), and Black's clock is not running (no started-at
    timestamp). -/
theorem c7_white_time_not_298_black_not_running :
    clkRun.1.timers.w.time = Q.ofNat 300 ∧
    Q.valEq (Q.ofNat 300) (Q.ofNat 298) = false ∧
    clkRun.1.timers.b.set = none :=
  ⟨by decide, by decide, by decide⟩

/-- C7 amended: in that scenario, when Black's move commits both remaining times
    are exactly 300 seconds (White's clock never started before this instant, and
    Black's started-at timestamp 0 is treated as unset so Black's two elapsed
    seconds are not charged), and it is White's turn with White's clock running
    (timestamp 2000). -/
theorem c7_clock_scenario_actual :
    clkRun.1.timers.w = { set := some 2000, time := Q.ofNat 300 } ∧
    clkRun.1.timers.b = { set := none, time := Q.ofNat 300 } ∧
    clkRun.1.turn = Color.w ∧ clkRun.1.complete = none :=
  ⟨by decide, by decide, by decide, by decide⟩

/- Dictionary lemmas for the Identity Map operations. -/

theorem aget_aset_self {α : Type} (d : List (String × α)) (k : String) (v : α) :
    aget (aset d k v) k = some v := by
  induction d with
  | nil => simp [aget, aset]
  | cons hd t ih =>
    obtain ⟨k', v'⟩ := hd
    by_cases hk : k' = k
    · simp [aset, hk, aget]
    · simp [aset, hk, aget, ih]

theorem aget_aset_ne {α : Type} (d : List (String × α)) (k k' : String) (v : α)
    (h : k' ≠ k) : aget (aset d k v) k' = aget d k' := by
  have h' : ¬(k = k') := fun hh => h hh.symm
  induction d with
  | nil => simp [aget, aset, h']
  | cons hd t ih =>
    obtain ⟨k0, v0⟩ := hd
    by_cases hk : k0 = k
    · subst hk
      simp [aset, aget, h']
    · by_cases hk' : k0 = k'
      · subst hk'
        simp [aset, hk, aget]
      · simp [aset, hk, aget, hk', ih]

theorem aget_adel_self {α : Type} (d : List (String × α)) (k : String) :
    aget (adel d k) k = none := by
  induction d with
  | nil => simp [aget, adel]
  | cons hd t ih =>
    obtain ⟨k0, v0⟩ := hd
    by_cases hk : k0 = k
    · simpa [adel, List.filter_cons, hk] using ih
    · simpa [adel, List.filter_cons, hk, aget] using ih

theorem aget_adel_ne {α : Type} (d : List (String × α)) (k k' : String)
    (h : k' ≠ k) : aget (adel d k) k' = aget d k' := by
  induction d with
  | nil => simp [aget, adel]
  | cons hd t ih =>
    obtain ⟨k0, v0⟩ := hd
    by_cases hk : k0 = k
    · have hk0 : ¬(k = k') := fun hh => h hh.symm
      simpa [adel, List.filter_cons, hk, aget, hk0] using ih
    · by_cases hk' : k0 = k'
      · subst hk'
        simp [adel, List.filter_cons, hk, aget]
      · simpa [adel, List.filter_cons, hk, aget, hk'] using ih

theorem oget_oset_self (d : PieceUids) (k : String) (v : Option String) :
    oget (oset d k v) k = v := by
  simp [oget, oset, aget_aset_self]

theorem oget_oset_ne (d : PieceUids) (k k' : String) (v : Option String)
    (h : k' ≠ k) : oget (oset d k v) k' = oget d k' := by
  simp [oget, oset, aget_aset_ne _ _ _ _ h]

theorem oget_odel_self (d : PieceUids) (k : String) :
    oget (odel d k) k = none := by
  simp [oget, odel, aget_adel_self]

theorem oget_odel_ne (d : PieceUids) (k k' : String)
    (h : k' ≠ k) : oget (odel d k) k' = oget d k' := by
  simp [oget, odel, aget_adel_ne _ _ _ h]

/- The captured-set removal of the undo case removes exactly the first matching
   entry: filter by jsIndexOf coincides with List.erase. -/

theorem filterIdxNeAux_of_lt {α : Type} (l : List α) :
    ∀ i idx : Int, idx < i → filterIdxNeAux i idx l = l := by
  induction l with
  | nil => intro i idx _; rfl
  | cons a t ih =>
    intro i idx h
    have h1 : ¬(i = idx) := by omega
    simp only [filterIdxNeAux, if_neg h1]
    rw [ih _ _ (by omega)]

theorem filterIdxNeAux_shift {α : Type} (l : List α) (idx s : Int) :
    ∀ i : Int, filterIdxNeAux (i + s) (idx + s) l = filterIdxNeAux i idx l := by
  induction l with
  | nil => intro i; rfl
  | cons a t ih =>
    intro i
    by_cases h : i = idx
    · have h2 : i + s = idx + s := by omega
      have h3 : i + s + 1 = (i + 1) + s := by ring
      simp only [filterIdxNeAux, if_pos h, if_pos h2, h3, ih]
    · have h2 : ¬(i + s = idx + s) := by omega
      have h3 : i + s + 1 = (i + 1) + s := by ring
      simp only [filterIdxNeAux, if_neg h, if_neg h2, h3, ih]

theorem jsIndexOf_cases (l : List PieceSymbol) (c : PieceSymbol) :
    jsIndexOf l c = -1 ∨ 0 ≤ jsIndexOf l c := by
  induction l with
  | nil => left; rfl
  | cons a t ih =>
    by_cases h : a = c
    · right
      simp [jsIndexOf, h]
    · rcases ih with h2 | h2
      · left
        simp [jsIndexOf, h, h2]
      · right
        by_cases h3 : jsIndexOf t c = -1
        · omega
        · simp only [jsIndexOf, if_neg h, if_neg h3]
          omega

theorem jsIndexOf_neg_one_iff (l : List PieceSymbol) (c : PieceSymbol) :
    jsIndexOf l c = -1 ↔ ¬ c ∈ l := by
  induction l with
  | nil => simp [jsIndexOf]
  | cons a t ih =>
    by_cases h : a = c
    · subst h
      simp [jsIndexOf]
    · by_cases h2 : jsIndexOf t c = -1
      · have hca : ¬(c = a) := fun hh => h hh.symm
        simp [jsIndexOf, h, h2, ih.mp h2, hca]
      · rcases jsIndexOf_cases t c with h3 | h3
        · exact absurd h3 h2
        · have hmem : c ∈ t := by
            by_contra hmem
            exact h2 (ih.mpr hmem)
          simp only [jsIndexOf, if_neg h, if_neg h2]
          constructor
          · intro hh
            omega
          · intro hh
            exact absurd (List.mem_cons_of_mem a hmem) hh

theorem jsRemoveFirst_eq_erase (l : List PieceSymbol) (c : PieceSymbol) :
    jsRemoveFirst l c = l.erase c := by
  induction l with
  | nil => rfl
  | cons a t ih =>
    by_cases h : a = c
    · subst h
      have h0 : jsIndexOf (a :: t) a = 0 := by simp [jsIndexOf]
      unfold jsRemoveFirst filterIdxNe
      rw [h0, List.erase_cons_head]
      simp only [filterIdxNeAux, if_pos rfl]
      exact filterIdxNeAux_of_lt t 1 0 (by omega)
    · have herase : (a :: t).erase c = a :: t.erase c := by
        rw [List.erase_cons_tail]
        simp [h]
      by_cases h2 : jsIndexOf t c = -1
      · have hidx : jsIndexOf (a :: t) c = -1 := by
          simp [jsIndexOf, h, h2]
        unfold jsRemoveFirst filterIdxNe
        rw [hidx, filterIdxNeAux_of_lt _ 0 (-1) (by omega), herase]
        have : c ∉ t := (jsIndexOf_neg_one_iff t c).mp h2
        rw [List.erase_of_not_mem this]
      · rcases jsIndexOf_cases t c with h3 | h3
        · exact absurd h3 h2
        · have hidx : jsIndexOf (a :: t) c = jsIndexOf t c + 1 := by
            simp [jsIndexOf, h, h2]
          unfold jsRemoveFirst filterIdxNe
          rw [hidx, herase]
          have hne : ¬((0 : Int) = jsIndexOf t c + 1) := by omega
          simp only [filterIdxNeAux, if_neg hne]
          have hs := filterIdxNeAux_shift t (jsIndexOf t c) 1 0
          rw [show (0 : Int) + (1 : Int) = (0 : Int) + 1 from rfl] at hs
          rw [show jsIndexOf t c + (1 : Int) = jsIndexOf t c + 1 from rfl] at hs
          rw [hs]
          unfold jsRemoveFirst filterIdxNe at ih
          rw [ih]

theorem erase_append_perm (l : List PieceSymbol) (c : PieceSymbol) :
    List.Perm ((l ++ [c]).erase c) l := by
  induction l with
  | nil => simp
  | cons a t ih =>
    by_cases h : a = c
    · subst h
      rw [List.cons_append, List.erase_cons_head]
      exact List.perm_append_singleton _ _
    · rw [List.cons_append, List.erase_cons_tail (by simp [h])]
      exact ih.cons a

theorem erase_append_singleton_perm (l : List PieceSymbol) (c : PieceSymbol) (h : c ∈ l) :
    List.Perm (l.erase c ++ [c]) l := by
  have h1 := List.perm_cons_erase h
  have h2 := List.perm_append_singleton c (l.erase c)
  exact h2.trans h1.symm

/- Completion evaluator. -/

/-- C8: getCompleteFlag equals the spec's completion tag encoding: single
    characters concatenated in the fixed order t, c, d, m, r, each present iff its
    predicate holds, and no value at all iff no condition holds. -/
theorem c8_complete_tag_encoding (o : Oracle) (stack : List MoveRec) (outOfTime : Bool) :
    getCompleteFlag o stack outOfTime =
      specCompleteTag outOfTime (o.checkmateOf stack) (o.drawOf stack)
        (o.insufficientOf stack) (o.threefoldOf stack) := by
  unfold getCompleteFlag specCompleteTag
  generalize o.checkmateOf stack = a
  generalize o.drawOf stack = b2
  generalize o.insufficientOf stack = c2
  generalize o.threefoldOf stack = d2
  cases outOfTime <;> cases a <;> cases b2 <;> cases c2 <;> cases d2 <;> decide

/-- A completion flag computed with the timed-out input is always truthy. -/
theorem truthyS_getCompleteFlag_true (o : Oracle) (stack : List MoveRec) :
    truthyS (getCompleteFlag o stack true) = true := by
  unfold getCompleteFlag
  generalize o.checkmateOf stack = a
  generalize o.drawOf stack = b2
  generalize o.insufficientOf stack = c2
  generalize o.threefoldOf stack = d2
  cases a <;> cases b2 <;> cases c2 <;> cases d2 <;> decide

/-- The board projection only reads the Identity Map through lookups. -/
theorem getBoard_congr (g : List (List (Option EngineCell))) (m m' : PieceUids)
    (h : ∀ k, oget m k = oget m' k) : getBoard g m = getBoard g m' := by
  unfold getBoard
  apply List.map_congr_left
  intro row _
  apply List.map_congr_left
  intro cell _
  cases cell with
  | none => rfl
  | some v => simp [h v.square]

/-- C10: when neither side's clock has a started-at timestamp, the checkTimers
    transition returns the state unchanged, for every time value — in particular
    the game cannot complete by timeout before a clock has been started. -/
theorem c10_checkTimers_noop_without_timestamps (o : Oracle) (stack : List MoveRec)
    (s : ChessState) (t : Q) (hw : s.timers.w.set = none) (hb : s.timers.b.set = none) :
    checkTimersStep o stack s t = s := by
  unfold checkTimersStep
  simp [truthyN, hw, hb]

/-- C10 witness: the fresh game state has no timestamps and checkTimers at an
    arbitrary concrete time leaves it unchanged. -/
theorem c10_witness :
    (createChessState clkOracle 5 stdPlayers).timers.w.set = none ∧
    (createChessState clkOracle 5 stdPlayers).timers.b.set = none ∧
    checkTimersStep clkOracle [] (createChessState clkOracle 5 stdPlayers) 987654 =
      createChessState clkOracle 5 stdPlayers :=
  ⟨rfl, rfl, c10_checkTimers_noop_without_timestamps clkOracle []
    (createChessState clkOracle 5 stdPlayers) 987654 rfl rfl⟩

/- Identity Tracker roundtrips. -/

/-- Reading a map after relocating the entry at a onto b. -/
theorem oget_reloc (m : PieceUids) (a b k : String) (hab : a ≠ b) :
    oget (odel (oset m b (oget m a)) a) k =
      if k = a then none else if k = b then oget m a else oget m k := by
  by_cases hka : k = a
  · subst hka
    simp [oget_odel_self]
  · rw [oget_odel_ne _ _ _ hka]
    by_cases hkb : k = b
    · subst hkb
      simp [hka, oget_oset_self]
    · rw [oget_oset_ne _ _ _ _ hkb]
      simp [hka, hkb]

/-- Capture-like branch (ordinary capture or en passant): undo inverts the move's
    Identity Map update, for any prior content of the destination square that is
    not the falsy empty-string identifier. -/
theorem track_untrack_cap (m : PieceUids) (rec : MoveRec)
    (hcap : capb rec = true) (hft : rec.from' ≠ rec.to')
    (hne : oget m rec.to' ≠ some "") (k : String) :
    oget (untrackMove (trackMove m rec).1 rec (some (trackMove m rec).2)) k = oget m k := by
  simp only [trackMove, hcap, if_true, untrackMove, truthyTaken]
  set M := odel (oset m rec.to' (oget m rec.from')) rec.from' with hM
  have hMto : oget M rec.to' = oget m rec.from' := by
    rw [hM, oget_reloc _ _ _ _ hft]
    simp [Ne.symm hft]
  have hMfrom : oget M rec.from' = none := by
    rw [hM, oget_reloc _ _ _ _ hft]
    simp
  have hMother : ∀ k', k' ≠ rec.from' → k' ≠ rec.to' → oget M k' = oget m k' := by
    intro k' h1 h2
    rw [hM, oget_reloc _ _ _ _ hft]
    simp [h1, h2]
  cases hto : oget m rec.to' with
  | none =>
    simp only [hto, truthyS, Bool.false_eq_true, if_false]
    by_cases hk1 : k = rec.to'
    · subst hk1
      rw [oget_odel_self]
      exact hto.symm
    · rw [oget_odel_ne _ _ _ hk1]
      by_cases hk2 : k = rec.from'
      · subst hk2
        rw [oget_oset_self, hMto]
      · rw [oget_oset_ne _ _ _ _ hk2, hMother k hk2 hk1]
  | some s =>
    have hs : ¬(s = "") := by
      intro hh
      exact hne (by rw [hto, hh])
    have hts : truthyS (some s) = true := by
      simp [truthyS, hs]
    simp only [hto, hts, if_true]
    by_cases hk1 : k = rec.to'
    · subst hk1
      rw [oget_oset_self]
      exact hto.symm
    · rw [oget_oset_ne _ _ _ _ hk1]
      by_cases hk2 : k = rec.from'
      · subst hk2
        rw [oget_oset_self, hMto]
      · rw [oget_oset_ne _ _ _ _ hk2, hMother k hk2 hk1]

/-- Quiet-move branch: undo inverts the move's Identity Map update when the
    destination square was unoccupied. -/
theorem track_untrack_quiet (m : PieceUids) (rec : MoveRec)
    (hcap : capb rec = false) (hkf : flagHas rec.flags 'k' = false)
    (hqf : flagHas rec.flags 'q' = false) (hft : rec.from' ≠ rec.to')
    (hto : oget m rec.to' = none) (k : String) :
    oget (untrackMove (trackMove m rec).1 rec (some (trackMove m rec).2)) k = oget m k := by
  simp only [trackMove, untrackMove, hcap, hkf, hqf, Bool.false_eq_true, if_false]
  set M := odel (oset m rec.to' (oget m rec.from')) rec.from' with hM
  have hMto : oget M rec.to' = oget m rec.from' := by
    rw [hM, oget_reloc _ _ _ _ hft]
    simp [Ne.symm hft]
  have hMother : ∀ k', k' ≠ rec.from' → k' ≠ rec.to' → oget M k' = oget m k' := by
    intro k' h1 h2
    rw [hM, oget_reloc _ _ _ _ hft]
    simp [h1, h2]
  rw [oget_reloc _ _ _ _ (Ne.symm hft)]
  by_cases hk1 : k = rec.to'
  · subst hk1
    simp [hto]
  · by_cases hk2 : k = rec.from'
    · subst hk2
      simp [hk1, hMto]
    · simp [hk1, hk2, hMother k hk2 hk1]

/-- Roundtrip of two interleaved relocations (king then rook, as in castling),
    forwards then backwards: the map is restored pointwise when the four squares
    are pairwise distinct and both destinations start unoccupied. -/
theorem reloc2_roundtrip (m : PieceUids) (a b cF cT : String)
    (hab : a ≠ b) (hah : a ≠ cF) (haf : a ≠ cT) (hbh : b ≠ cF) (hbf : b ≠ cT)
    (hhf : cF ≠ cT) (hb : oget m b = none) (hcT : oget m cT = none) (k : String) :
    (let u1 := odel (oset m b (oget m a)) a
     let m2 := odel (oset u1 cT (oget u1 cF)) cF
     let v1 := odel (oset m2 a (oget m2 b)) b
     oget (odel (oset v1 cF (oget v1 cT)) cT) k) = oget m k := by
  dsimp only
  set U := odel (oset m b (oget m a)) a with hU0
  set M := odel (oset U cT (oget U cF)) cF with hM0
  set V := odel (oset M a (oget M b)) b with hV0
  have hU : ∀ k', oget U k' =
      if k' = a then none else if k' = b then oget m a else oget m k' := by
    intro k'
    rw [hU0]
    exact oget_reloc m a b k' hab
  have hM : ∀ k', oget M k' =
      if k' = cF then none else if k' = cT then oget U cF else oget U k' := by
    intro k'
    rw [hM0]
    exact oget_reloc U cF cT k' hhf
  have hV : ∀ k', oget V k' =
      if k' = b then none else if k' = a then oget M b else oget M k' := by
    intro k'
    rw [hV0]
    exact oget_reloc M b a k' (Ne.symm hab)
  rw [oget_reloc V cT cF k (Ne.symm hhf)]
  by_cases h1 : k = cT
  · subst h1
    simp [hcT]
  · rw [if_neg h1]
    by_cases h2 : k = cF
    · subst h2
      rw [if_pos rfl, hV, if_neg (Ne.symm hbf), if_neg (Ne.symm haf), hM,
        if_neg (fun hh => hhf hh.symm), if_pos rfl, hU, if_neg (Ne.symm hah),
        if_neg (Ne.symm hbh)]
    · rw [if_neg h2, hV]
      by_cases h3 : k = b
      · subst h3
        simp [hb]
      · rw [if_neg h3]
        by_cases h4 : k = a
        · subst h4
          rw [if_pos rfl, hM, if_neg hbh, if_neg hbf, hU, if_neg (Ne.symm hab),
            if_pos rfl]
        · rw [if_neg h4, hM, if_neg h2, if_neg h1, hU, if_neg h4, if_neg h3]

/-- Kingside-castle branch: undo inverts the move's Identity Map update. -/
theorem track_untrack_castle_k (m : PieceUids) (rec : MoveRec)
    (hcap : capb rec = false) (hkf : flagHas rec.flags 'k' = true)
    (hd : distinctSq4 rec.from' rec.to' (kCastleFrom rec) (kCastleTo rec) = true)
    (hto : oget m rec.to' = none) (hfT : oget m (kCastleTo rec) = none) (k : String) :
    oget (untrackMove (trackMove m rec).1 rec (some (trackMove m rec).2)) k = oget m k := by
  simp only [distinctSq4, Bool.and_eq_true, bne_iff_ne] at hd
  obtain ⟨⟨⟨⟨⟨hab, hah⟩, haf⟩, hbh⟩, hbf⟩, hhf⟩ := hd
  simp only [trackMove, untrackMove, hcap, hkf, Bool.false_eq_true, if_false, if_true]
  exact reloc2_roundtrip m rec.from' rec.to' (kCastleFrom rec) (kCastleTo rec)
    hab hah haf hbh hbf hhf hto hfT k

/-- Queenside-castle branch: undo inverts the move's Identity Map update. -/
theorem track_untrack_castle_q (m : PieceUids) (rec : MoveRec)
    (hcap : capb rec = false) (hkf : flagHas rec.flags 'k' = false)
    (hqf : flagHas rec.flags 'q' = true)
    (hd : distinctSq4 rec.from' rec.to' (qCastleFrom rec) (qCastleTo rec) = true)
    (hto : oget m rec.to' = none) (hfT : oget m (qCastleTo rec) = none) (k : String) :
    oget (untrackMove (trackMove m rec).1 rec (some (trackMove m rec).2)) k = oget m k := by
  simp only [distinctSq4, Bool.and_eq_true, bne_iff_ne] at hd
  obtain ⟨⟨⟨⟨⟨hab, hah⟩, haf⟩, hbh⟩, hbf⟩, hhf⟩ := hd
  simp only [trackMove, untrackMove, hcap, hkf, hqf, Bool.false_eq_true, if_false, if_true]
  exact reloc2_roundtrip m rec.from' rec.to' (qCastleFrom rec) (qCastleTo rec)
    hab hah haf hbh hbf hhf hto hfT k

/-- The Identity Tracker reversal inverts the forward update pointwise, in every
    branch, under the trackOk side conditions. -/
theorem track_untrack (m : PieceUids) (rec : MoveRec) (h : trackOk m rec = true)
    (k : String) :
    oget (untrackMove (trackMove m rec).1 rec (some (trackMove m rec).2)) k = oget m k := by
  rw [trackOk, Bool.and_eq_true] at h
  obtain ⟨hft', hrest⟩ := h
  have hft : rec.from' ≠ rec.to' := by simpa using hft'
  by_cases hcap : capb rec = true
  · rw [if_pos hcap] at hrest
    have hne : oget m rec.to' ≠ some "" := by
      intro hh
      rw [hh] at hrest
      simp at hrest
    exact track_untrack_cap m rec hcap hft hne k
  · have hcap' : capb rec = false := by
      cases hc : capb rec
      · rfl
      · exact absurd hc hcap
    rw [if_neg (by simp [hcap'])] at hrest
    by_cases hk : flagHas rec.flags 'k' = true
    · rw [if_pos hk, Bool.and_eq_true, Bool.and_eq_true] at hrest
      obtain ⟨⟨hd, hto⟩, hfT⟩ := hrest
      exact track_untrack_castle_k m rec hcap' hk hd (by simpa using hto)
        (by simpa using hfT) k
    · have hk' : flagHas rec.flags 'k' = false := by
        cases hc : flagHas rec.flags 'k'
        · rfl
        · exact absurd hc hk
      rw [if_neg (by simp [hk'])] at hrest
      by_cases hq : flagHas rec.flags 'q' = true
      · rw [if_pos hq, Bool.and_eq_true, Bool.and_eq_true] at hrest
        obtain ⟨⟨hd, hto⟩, hfT⟩ := hrest
        exact track_untrack_castle_q m rec hcap' hk' hq hd (by simpa using hto)
          (by simpa using hfT) k
      · have hq' : flagHas rec.flags 'q' = false := by
          cases hc : flagHas rec.flags 'q'
          · rfl
          · exact absurd hc hq
        rw [if_neg (by simp [hq'])] at hrest
        exact track_untrack_quiet m rec hcap' hk' hq' hft (by simpa using hrest) k

/-- Capture-like branch, reverse direction: replaying the move after its undo
    restores the post-move Identity Map pointwise. -/
theorem untrack_track_cap (m : PieceUids) (rec : MoveRec) (e : MoveUID)
    (hcap : capb rec = true) (hft : rec.from' ≠ rec.to')
    (hfrom : oget m rec.from' = none) (hts : e.taken ≠ some "") (k : String) :
    oget (trackMove (untrackMove m rec (some e)) rec).1 k = oget m k := by
  simp only [untrackMove, trackMove, hcap, if_true, truthyTaken]
  cases he : e.taken with
  | none =>
    simp only [truthyS, Bool.false_eq_true, if_false]
    rw [oget_reloc _ _ _ _ hft]
    by_cases h1 : k = rec.from'
    · subst h1
      simp [hfrom]
    · rw [if_neg h1]
      by_cases h2 : k = rec.to'
      · subst h2
        rw [if_pos rfl, oget_reloc _ _ _ _ (Ne.symm hft), if_neg hft, if_pos rfl]
      · rw [if_neg h2, oget_reloc _ _ _ _ (Ne.symm hft), if_neg h2, if_neg h1]
  | some s =>
    have hs : ¬(s = "") := by
      intro hh
      exact hts (by rw [he, hh])
    have hts' : truthyS (some s) = true := by simp [truthyS, hs]
    simp only [hts', if_true]
    rw [oget_reloc _ _ _ _ hft]
    by_cases h1 : k = rec.from'
    · subst h1
      simp [hfrom]
    · rw [if_neg h1]
      by_cases h2 : k = rec.to'
      · subst h2
        rw [if_pos rfl, oget_oset_ne _ _ _ _ hft, oget_oset_self]
      · rw [if_neg h2, oget_oset_ne _ _ _ _ h2, oget_oset_ne _ _ _ _ h1]

/-- Quiet branch, reverse direction. -/
theorem untrack_track_quiet (m : PieceUids) (rec : MoveRec) (e : MoveUID)
    (hcap : capb rec = false) (hkf : flagHas rec.flags 'k' = false)
    (hqf : flagHas rec.flags 'q' = false) (hft : rec.from' ≠ rec.to')
    (hfrom : oget m rec.from' = none) (k : String) :
    oget (trackMove (untrackMove m rec (some e)) rec).1 k = oget m k := by
  simp only [untrackMove, trackMove, hcap, hkf, hqf, Bool.false_eq_true, if_false]
  rw [oget_reloc _ _ _ _ hft]
  by_cases h1 : k = rec.from'
  · subst h1
    simp [hfrom]
  · rw [if_neg h1]
    by_cases h2 : k = rec.to'
    · subst h2
      rw [if_pos rfl, oget_reloc _ _ _ _ (Ne.symm hft), if_neg hft, if_pos rfl]
    · rw [if_neg h2, oget_reloc _ _ _ _ (Ne.symm hft), if_neg h2, if_neg h1]

/-- Kingside-castle branch, reverse direction. -/
theorem untrack_track_castle_k (m : PieceUids) (rec : MoveRec) (e : MoveUID)
    (hcap : capb rec = false) (hkf : flagHas rec.flags 'k' = true)
    (hd : distinctSq4 rec.from' rec.to' (kCastleFrom rec) (kCastleTo rec) = true)
    (hfrom : oget m rec.from' = none) (hhF : oget m (kCastleFrom rec) = none)
    (k : String) :
    oget (trackMove (untrackMove m rec (some e)) rec).1 k = oget m k := by
  simp only [distinctSq4, Bool.and_eq_true, bne_iff_ne] at hd
  obtain ⟨⟨⟨⟨⟨hab, hah⟩, haf⟩, hbh⟩, hbf⟩, hhf⟩ := hd
  simp only [untrackMove, trackMove, hcap, hkf, Bool.false_eq_true, if_false, if_true]
  exact reloc2_roundtrip m rec.to' rec.from' (kCastleTo rec) (kCastleFrom rec)
    (Ne.symm hab) hbf hbh haf hah (Ne.symm hhf) hfrom hhF k

/-- Queenside-castle branch, reverse direction. -/
theorem untrack_track_castle_q (m : PieceUids) (rec : MoveRec) (e : MoveUID)
    (hcap : capb rec = false) (hkf : flagHas rec.flags 'k' = false)
    (hqf : flagHas rec.flags 'q' = true)
    (hd : distinctSq4 rec.from' rec.to' (qCastleFrom rec) (qCastleTo rec) = true)
    (hfrom : oget m rec.from' = none) (hhF : oget m (qCastleFrom rec) = none)
    (k : String) :
    oget (trackMove (untrackMove m rec (some e)) rec).1 k = oget m k := by
  simp only [distinctSq4, Bool.and_eq_true, bne_iff_ne] at hd
  obtain ⟨⟨⟨⟨⟨hab, hah⟩, haf⟩, hbh⟩, hbf⟩, hhf⟩ := hd
  simp only [untrackMove, trackMove, hcap, hkf, hqf, Bool.false_eq_true, if_false, if_true]
  exact reloc2_roundtrip m rec.to' rec.from' (qCastleTo rec) (qCastleFrom rec)
    (Ne.symm hab) hbf hbh haf hah (Ne.symm hhf) hfrom hhF k

/-- The Identity Tracker forward update inverts the reversal pointwise under the
    untrackOk side conditions. -/
theorem untrack_track (m : PieceUids) (rec : MoveRec) (e : MoveUID)
    (h : untrackOk m rec e = true) (k : String) :
    oget (trackMove (untrackMove m rec (some e)) rec).1 k = oget m k := by
  rw [untrackOk, Bool.and_eq_true, Bool.and_eq_true] at h
  obtain ⟨⟨hft', hfrom'⟩, hrest⟩ := h
  have hft : rec.from' ≠ rec.to' := by simpa using hft'
  have hfrom : oget m rec.from' = none := by simpa using hfrom'
  by_cases hcap : capb rec = true
  · rw [if_pos hcap] at hrest
    have hts : e.taken ≠ some "" := by
      intro hh
      rw [hh] at hrest
      simp at hrest
    exact untrack_track_cap m rec e hcap hft hfrom hts k
  · have hcap' : capb rec = false := by
      cases hc : capb rec
      · rfl
      · exact absurd hc hcap
    rw [if_neg (by simp [hcap'])] at hrest
    by_cases hk : flagHas rec.flags 'k' = true
    · rw [if_pos hk, Bool.and_eq_true, Bool.and_eq_true] at hrest
      obtain ⟨⟨_, hd⟩, hhF⟩ := hrest
      exact untrack_track_castle_k m rec e hcap' hk hd hfrom (by simpa using hhF) k
    · have hk' : flagHas rec.flags 'k' = false := by
        cases hc : flagHas rec.flags 'k'
        · rfl
        · exact absurd hc hk
      rw [if_neg (by simp [hk'])] at hrest
      by_cases hq : flagHas rec.flags 'q' = true
      · rw [if_pos hq, Bool.and_eq_true, Bool.and_eq_true] at hrest
        obtain ⟨⟨_, hd⟩, hhF⟩ := hrest
        exact untrack_track_castle_q m rec e hcap' hk' hq hd hfrom
          (by simpa using hhF) k
      · have hq' : flagHas rec.flags 'q' = false := by
          cases hc : flagHas rec.flags 'q'
          · rfl
          · exact absurd hc hq
        rw [if_neg (by simp [hq'])] at hrest
        exact untrack_track_quiet m rec e hcap' hk' hq' hft hfrom k

/-- Replaying a move right after its undo pushes back exactly the popped Identity
    Undo Record. -/
theorem untrack_track_rec (m : PieceUids) (rec : MoveRec) (e : MoveUID)
    (h : untrackOk m rec e = true) :
    (trackMove (untrackMove m rec (some e)) rec).2 = e := by
  rw [untrackOk, Bool.and_eq_true, Bool.and_eq_true] at h
  obtain ⟨⟨hft', _⟩, hrest⟩ := h
  have hft : rec.from' ≠ rec.to' := by simpa using hft'
  by_cases hcap : capb rec = true
  · rw [if_pos hcap] at hrest
    simp only [untrackMove, trackMove, hcap, if_true, truthyTaken]
    cases he : e.taken with
    | none =>
      simp only [truthyS, Bool.false_eq_true, if_false]
      have : oget (odel (oset m rec.from' (oget m rec.to')) rec.to') rec.to' = none :=
        oget_odel_self _ _
      rw [this]
      cases e
      simp_all
    | some s =>
      have hs : ¬(s = "") := by
        intro hh
        rw [he, hh] at hrest
        simp at hrest
      have hts' : truthyS (some s) = true := by simp [truthyS, hs]
      simp only [hts', if_true]
      rw [oget_oset_self]
      cases e
      simp_all
  · have hcap' : capb rec = false := by
      cases hc : capb rec
      · rfl
      · exact absurd hc hcap
    rw [if_neg (by simp [hcap'])] at hrest
    have htk : e.taken = none := by
      by_cases hk : flagHas rec.flags 'k' = true
      · rw [if_pos hk, Bool.and_eq_true, Bool.and_eq_true] at hrest
        obtain ⟨⟨htn, _⟩, _⟩ := hrest
        simpa using htn
      · have hk' : flagHas rec.flags 'k' = false := by
          cases hc : flagHas rec.flags 'k'
          · rfl
          · exact absurd hc hk
        rw [if_neg (by simp [hk'])] at hrest
        by_cases hq : flagHas rec.flags 'q' = true
        · rw [if_pos hq, Bool.and_eq_true, Bool.and_eq_true] at hrest
          obtain ⟨⟨htn, _⟩, _⟩ := hrest
          simpa using htn
        · rw [if_neg (by simp [show flagHas rec.flags 'q' = false by
            cases hc : flagHas rec.flags 'q'
            · rfl
            · exact absurd hc hq])] at hrest
          simpa using hrest
    simp only [trackMove, hcap, Bool.false_eq_true, if_false]
    cases e
    simp_all
    split
    · rfl
    · split <;> rfl

/- Clock lemmas. -/

/-- Subtracting a zero elapsed time (same instant) cannot make a positive
    remaining time test as expired. -/
theorem ble_sub_same_zero (t now : Q) (hd : 0 < now.den) (ht : 0 < t.num) :
    Q.ble (t - (now - now) / 1000) 0 = false := by
  have hdiv : ((now - now) / 1000 : Q) = { num := 0, den := now.den * now.den * 1000 } := by
    show Q.div (Q.sub now now) 1000 = _
    unfold Q.div Q.sub
    rw [if_pos (show (0 : Int) ≤ (1000 : Q).num by decide)]
    simp only [Q.mk.injEq]
    constructor
    · have h1 : now.num * (now.den : Int) - now.num * (now.den : Int) = 0 := by ring
      rw [h1]
      ring
    · rfl
  show Q.ble (Q.sub t ((now - now) / 1000)) 0 = false
  rw [hdiv]
  unfold Q.ble Q.sub
  simp only [decide_eq_false_iff_not, not_le]
  have h0n : (0 : Q).num = 0 := rfl
  have h0d : ((0 : Q).den : Int) = 1 := rfl
  rw [h0n, h0d]
  have hC : (0 : Int) < ((now.den * now.den * 1000 : Nat) : Int) := by
    have : 0 < now.den * now.den * 1000 := by positivity
    exact_mod_cast this
  nlinarith [mul_pos ht hC]

/-- checkTimers is the identity when each started-at timestamp is either absent or
    equal to the current instant and both remaining times are positive. -/
theorem checkTimers_noop_same_time (o : Oracle) (stack : List MoveRec) (s : ChessState)
    (now : Q) (hd : 0 < now.den)
    (hw : s.timers.w.set = none ∨ s.timers.w.set = some now)
    (hb : s.timers.b.set = none ∨ s.timers.b.set = some now)
    (hwt : 0 < s.timers.w.time.num) (hbt : 0 < s.timers.b.time.num) :
    checkTimersStep o stack s now = s := by
  unfold checkTimersStep
  cases hcw : truthyN s.timers.w.set with
  | true =>
    rcases hw with hw | hw
    · rw [hw] at hcw
      simp [truthyN] at hcw
    · have hz : Q.isZero now = false := by
        rw [hw] at hcw
        simpa [truthyN] using hcw
      simp [hw, hz, ble_sub_same_zero _ _ hd hwt]
  | false =>
    rcases hb with hb | hb
    · simp [hb]
    · cases hz : Q.isZero now with
      | true => simp [hb, hz]
      | false => simp [hb, hz, ble_sub_same_zero _ _ hd hbt]

/-- A time check that returned the state unchanged with a falsy completion flag
    guarantees that charging the running side at the same instant stays positive. -/
theorem ct_id_strict_guard (o : Oracle) (stack : List MoveRec) (s : ChessState) (t : Q)
    (hct : checkTimersStep o stack s t = s) (hco : truthyS s.complete = false)
    (hnb : ¬(truthyN s.timers.w.set = true ∧ truthyN s.timers.b.set = true)) :
    chargeSafeP s.timers t := by
  constructor
  · intro v hv hz
    cases hble : Q.ble (s.timers.w.time - (t - v) / 1000) 0 with
    | false => rfl
    | true =>
      exfalso
      have htv : truthyN (some v) = true := by simp [truthyN, hz]
      unfold checkTimersStep at hct
      simp only [hv, htv, if_true, hz, Bool.false_eq_true, if_false, hble] at hct
      have hcmp := congrArg (fun st : ChessState => truthyS st.complete) hct
      dsimp only at hcmp
      simp only [truthyS_getCompleteFlag_true] at hcmp
      rw [hco] at hcmp
      exact absurd hcmp (by decide)
  · intro v hv hz
    cases hble : Q.ble (s.timers.b.time - (t - v) / 1000) 0 with
    | false => rfl
    | true =>
      exfalso
      have htb : truthyN s.timers.b.set = true := by simp [truthyN, hv, hz]
      have htw : truthyN s.timers.w.set = false := by
        cases hc : truthyN s.timers.w.set
        · rfl
        · exact absurd ⟨hc, htb⟩ hnb
      unfold checkTimersStep at hct
      simp only [htw, Bool.false_eq_true, if_false, hv, hz, hble, if_true] at hct
      have hcmp := congrArg (fun st : ChessState => truthyS st.complete) hct
      dsimp only at hcmp
      simp only [truthyS_getCompleteFlag_true] at hcmp
      rw [hco] at hcmp
      exact absurd hcmp (by decide)

/- Move rejection. -/

/-- C1 amended: when the time check leaves the state unchanged, the game is not
    complete and the rules engine rejects the move, the Move transition returns
    the state with only the redo stack cleared (and the engine untouched). -/
theorem c1_illegal_clears_redo (o : Oracle) (s : ChessState) (stack : List MoveRec)
    (inp : MoveInput) (t : Q)
    (h1 : checkTimersStep o stack s t = s) (h2 : truthyS s.complete = false)
    (h3 : o.moveOf stack inp = none) :
    moveStep o (s, stack) inp t = ({ s with redoStack := [] }, stack) := by
  unfold moveStep
  simp only [h1, h2, h3, Bool.false_eq_true, if_false]

/-- C1 witness: the amended statement applied to the concrete illegal move e2 to
    e5 in the state after 1.e4 and an undo. -/
theorem c1_witness :
    checkTimersStep c1Oracle c1Run.2 c1Run.1 1000 = c1Run.1 ∧
    truthyS c1Run.1.complete = false ∧
    c1Oracle.moveOf c1Run.2 ⟨"e2", "e5", none⟩ = none ∧
    moveStep c1Oracle (c1Run.1, c1Run.2) ⟨"e2", "e5", none⟩ 1000 =
      ({ c1Run.1 with redoStack := [] }, c1Run.2) :=
  ⟨by decide, by decide, by decide,
    c1_illegal_clears_redo c1Oracle c1Run.1 c1Run.2 ⟨"e2", "e5", none⟩ 1000
      (by decide) (by decide) (by decide)⟩

/- Captured-set behaviour of undo. -/

theorem Captured.get_setAt_self (cp : Captured) (col : Color) (l : List PieceSymbol) :
    (Captured.setAt cp col l).get col = l := by
  cases col <;> rfl

theorem Captured.get_setAt_other (cp : Captured) (col col' : Color) (l : List PieceSymbol)
    (h : col' ≠ col) : (Captured.setAt cp col l).get col' = cp.get col' := by
  cases col <;> cases col' <;> simp_all [Captured.setAt, Captured.get]

/-- endMove does not touch the Captured Set. -/
theorem endMoveStep_captured (o : Oracle) (stack : List MoveRec) (s : ChessState)
    (now : Q) : (endMoveStep o stack s now).captured = s.captured := rfl

/-- C6 amended: undoing a capturing move removes exactly the first (earliest
    index) matching entry from the capturer's Captured Set, and leaves the other
    side's Captured Set unchanged. -/
theorem c6_undo_removes_earliest_match (o : Oracle) (s : ChessState)
    (stack' : List MoveRec) (rec : MoveRec) (c : PieceSymbol) (ms : List MoveRec) (t : Q)
    (hct : checkTimersStep o (rec :: stack') s t = s)
    (hco : truthyS s.complete = false)
    (hms : s.moves = some ms)
    (hcapt : rec.captured = some c) :
    (undoStep o (s, rec :: stack') t).1.captured.get rec.color =
      (s.captured.get rec.color).erase c ∧
    (∀ col, col ≠ rec.color →
      (undoStep o (s, rec :: stack') t).1.captured.get col = s.captured.get col) := by
  unfold undoStep
  simp only [hct, hco, Bool.false_eq_true, if_false, hms, hcapt]
  rw [show filterIdxNe (s.captured.get rec.color) (jsIndexOf (s.captured.get rec.color) c) =
    jsRemoveFirst (s.captured.get rec.color) c from rfl]
  rw [jsRemoveFirst_eq_erase]
  constructor
  · rw [endMoveStep_captured]
    exact Captured.get_setAt_self _ _ _
  · intro col hcol
    rw [endMoveStep_captured]
    exact Captured.get_setAt_other _ _ _ _ hcol

/-- C6 witness: the amended statement applied to the undo of White's capture
    6.dxe5 with Captured Set pawn, knight, pawn. -/
theorem c6_witness :
    truthyS capRun11.1.complete = false ∧
    capRun11.1.moves = some capGame ∧
    ((undoStep capOracle (capRun11.1,
        (⟨"d4", "e5", none, some .p, "c", .w⟩ : MoveRec) :: capRun11.2.tail) 1000).1.captured.get Color.w =
      (capRun11.1.captured.get Color.w).erase PieceSymbol.p ∧
    (∀ col, col ≠ Color.w →
      (undoStep capOracle (capRun11.1,
        (⟨"d4", "e5", none, some .p, "c", .w⟩ : MoveRec) :: capRun11.2.tail) 1000).1.captured.get col =
        capRun11.1.captured.get col)) :=
  ⟨by decide, by decide,
    c6_undo_removes_earliest_match capOracle capRun11.1 capRun11.2.tail
      ⟨"d4", "e5", none, some .p, "c", .w⟩ PieceSymbol.p capGame 1000
      (by decide) (by decide) (by decide) rfl⟩

/-- A failed expiry test against zero means a positive numerator. -/
theorem ble_zero_false_pos (x : Q) (h : Q.ble x 0 = false) : 0 < x.num := by
  unfold Q.ble at h
  simp only [decide_eq_false_iff_not, not_le] at h
  have h0n : (0 : Q).num = 0 := rfl
  have h0d : ((0 : Q).den : Int) = 1 := rfl
  rw [h0n, h0d] at h
  simpa using h

/-- After endMove, each timestamp is either cleared or set to the current instant,
    and both remaining times stay positive when charging was safe. -/
theorem endMove_timers_ok (o : Oracle) (stack : List MoveRec) (s : ChessState) (now : Q)
    (hcs : chargeSafeP s.timers now)
    (hwt : 0 < s.timers.w.time.num) (hbt : 0 < s.timers.b.time.num) :
    ((endMoveStep o stack s now).timers.w.set = none ∨
      (endMoveStep o stack s now).timers.w.set = some now) ∧
    ((endMoveStep o stack s now).timers.b.set = none ∨
      (endMoveStep o stack s now).timers.b.set = some now) ∧
    0 < (endMoveStep o stack s now).timers.w.time.num ∧
    0 < (endMoveStep o stack s now).timers.b.time.num := by
  have hcw : 0 < (chargeTimer s.timers.w now).time.num ∧
      (chargeTimer s.timers.w now).set = none := by
    unfold chargeTimer
    cases hset : s.timers.w.set with
    | none => exact ⟨hwt, rfl⟩
    | some sv =>
      dsimp only
      cases hz : Q.isZero sv with
      | true =>
        rw [if_pos rfl]
        exact ⟨hwt, rfl⟩
      | false =>
        rw [if_neg Bool.false_ne_true]
        exact ⟨ble_zero_false_pos _ (hcs.1 sv hset hz), rfl⟩
  have hcb : 0 < (chargeTimer s.timers.b now).time.num ∧
      (chargeTimer s.timers.b now).set = none := by
    unfold chargeTimer
    cases hset : s.timers.b.set with
    | none => exact ⟨hbt, rfl⟩
    | some sv =>
      dsimp only
      cases hz : Q.isZero sv with
      | true =>
        rw [if_pos rfl]
        exact ⟨hbt, rfl⟩
      | false =>
        rw [if_neg Bool.false_ne_true]
        exact ⟨ble_zero_false_pos _ (hcs.2 sv hset hz), rfl⟩
  have htimers : (endMoveStep o stack s now).timers =
      if o.turnOf stack = Color.b then
        { w := chargeTimer s.timers.w now, b := { set := some now, time := s.timers.b.time } }
      else
        { w := { set := some now, time := s.timers.w.time }, b := chargeTimer s.timers.b now } := rfl
  rw [htimers]
  by_cases ht : o.turnOf stack = Color.b
  · rw [if_pos ht]
    exact ⟨Or.inl hcw.2, Or.inr rfl, hcw.1, hbt⟩
  · rw [if_neg ht]
    exact ⟨Or.inr rfl, Or.inl hcb.2, hwt, hcb.1⟩

/-- The Captured Set after appending one capture and removing the first matching
    entry is a permutation of the original, for each side. -/
theorem captured_roundtrip (cp : Captured) (rc : Color) (c : PieceSymbol) (col : Color) :
    List.Perm ((Captured.setAt (Captured.setAt cp rc ((cp.get rc) ++ [c])) rc
      (filterIdxNe ((Captured.setAt cp rc ((cp.get rc) ++ [c])).get rc)
        (jsIndexOf ((Captured.setAt cp rc ((cp.get rc) ++ [c])).get rc) c))).get col)
      (cp.get col) := by
  rw [Captured.get_setAt_self]
  have hremove : ∀ l, filterIdxNe l (jsIndexOf l c) = l.erase c :=
    fun l => jsRemoveFirst_eq_erase l c
  rw [hremove]
  by_cases hcol : col = rc
  · subst hcol
    rw [Captured.get_setAt_self]
    exact erase_append_perm _ _
  · rw [Captured.get_setAt_other _ _ _ _ hcol, Captured.get_setAt_other _ _ _ _ hcol]

/-- C4 amended: Undo immediately after a successful Move restores the board
    projection and the turn exactly and the Captured Set of each side as a
    multiset; the prior Identity Map is restored pointwise provided the tracker
    side condition holds for the move (capture-like destination mapped, quiet and
    castling destinations unmapped) — a condition genuine play guarantees except
    on squares carrying a stale identifier left behind by the en-passant defect,
    as the counterexample's 4...Nd5 trace shows. -/
theorem c4_move_undo_roundtrip (o : Oracle) (s : ChessState) (stack : List MoveRec)
    (inp : MoveInput) (rec : MoveRec) (t : Q)
    (hden : 0 < t.den)
    (hct : checkTimersStep o stack s t = s)
    (hco : truthyS s.complete = false)
    (hnb : ¬(truthyN s.timers.w.set = true ∧ truthyN s.timers.b.set = true))
    (hmv : o.moveOf stack inp = some rec)
    (htk : trackOk s.pieceUids rec = true)
    (hpost : truthyS (getCompleteFlag o (rec :: stack) false) = false)
    (hwt : 0 < s.timers.w.time.num) (hbt : 0 < s.timers.b.time.num)
    (hbd : s.board = getBoard (o.boardOf stack) s.pieceUids)
    (htn : s.turn = o.turnOf stack) :
    (∀ k, oget (undoStep o (moveStep o (s, stack) inp t) t).1.pieceUids k =
      oget s.pieceUids k) ∧
    (undoStep o (moveStep o (s, stack) inp t) t).1.board = s.board ∧
    (∀ col, List.Perm ((undoStep o (moveStep o (s, stack) inp t) t).1.captured.get col)
      (s.captured.get col)) ∧
    (undoStep o (moveStep o (s, stack) inp t) t).1.turn = s.turn := by
  have hmove : moveStep o (s, stack) inp t =
      (endMoveStep o (rec :: stack)
        { s with
          redoStack := ([] : List MoveRec)
          pieceUids := (trackMove s.pieceUids rec).1
          pieceUidTracker := s.pieceUidTracker ++ [(trackMove s.pieceUids rec).2]
          moves := some ((s.moves.getD []) ++ [rec])
          captured :=
            match rec.captured with
            | some c => Captured.setAt s.captured rec.color ((s.captured.get rec.color) ++ [c])
            | none => s.captured } t, rec :: stack) := by
    unfold moveStep
    dsimp only
    rw [hct, hco, hmv]
    rfl
  rw [hmove]
  set sMid : ChessState :=
    { s with
      redoStack := ([] : List MoveRec)
      pieceUids := (trackMove s.pieceUids rec).1
      pieceUidTracker := s.pieceUidTracker ++ [(trackMove s.pieceUids rec).2]
      moves := some ((s.moves.getD []) ++ [rec])
      captured :=
        match rec.captured with
        | some c => Captured.setAt s.captured rec.color ((s.captured.get rec.color) ++ [c])
        | none => s.captured } with hsMid
  have hcs : chargeSafeP sMid.timers t := ct_id_strict_guard o stack s t hct hco hnb
  have hem := endMove_timers_ok o (rec :: stack) sMid t hcs hwt hbt
  obtain ⟨hw2, hb2, hwt2, hbt2⟩ := hem
  set E : ChessState := endMoveStep o (rec :: stack) sMid t with hE
  have hctu : checkTimersStep o (rec :: stack) E t = E :=
    checkTimers_noop_same_time o (rec :: stack) E t hden hw2 hb2 hwt2 hbt2
  have hc2 : truthyS E.complete = false := hpost
  have hmv2 : E.moves = some ((s.moves.getD []) ++ [rec]) := rfl
  have hEtr : E.pieceUidTracker = s.pieceUidTracker ++ [(trackMove s.pieceUids rec).2] := rfl
  have hEuids : E.pieceUids = (trackMove s.pieceUids rec).1 := rfl
  have hEcapt : E.captured =
      (match rec.captured with
        | some c => Captured.setAt s.captured rec.color ((s.captured.get rec.color) ++ [c])
        | none => s.captured) := rfl
  unfold undoStep
  dsimp only
  rw [hctu, hc2, hmv2]
  simp only [Bool.false_eq_true, if_false]
  rw [hEtr, hEuids, hEcapt, List.getLast?_concat, List.dropLast_concat]
  cases hcap : rec.captured with
  | none =>
    dsimp only
    refine ⟨?_, ?_, ?_, ?_⟩
    · intro k
      exact track_untrack s.pieceUids rec htk k
    · exact (getBoard_congr (o.boardOf stack)
        (untrackMove (trackMove s.pieceUids rec).1 rec (some (trackMove s.pieceUids rec).2))
        s.pieceUids (track_untrack s.pieceUids rec htk)).trans hbd.symm
    · intro col
      exact List.Perm.refl _
    · exact htn.symm
  | some c =>
    dsimp only
    refine ⟨?_, ?_, ?_, ?_⟩
    · intro k
      exact track_untrack s.pieceUids rec htk k
    · exact (getBoard_congr (o.boardOf stack)
        (untrackMove (trackMove s.pieceUids rec).1 rec (some (trackMove s.pieceUids rec).2))
        s.pieceUids (track_untrack s.pieceUids rec htk)).trans hbd.symm
    · intro col
      exact captured_roundtrip s.captured rec.color c col
    · exact htn.symm

/-- C4 witness: the amended statement applied to White's capture 6.dxe5 followed
    by an immediate undo, from the state after ten moves. -/
theorem c4_witness :
    trackOk capRun10.1.pieceUids ⟨"d4", "e5", none, some .p, "c", .w⟩ = true ∧
    capOracle.moveOf capRun10.2 ⟨"d4", "e5", none⟩ =
      some ⟨"d4", "e5", none, some .p, "c", .w⟩ ∧
    ((∀ k, oget (undoStep capOracle
        (moveStep capOracle (capRun10.1, capRun10.2) ⟨"d4", "e5", none⟩ 1000) 1000).1.pieceUids k =
      oget capRun10.1.pieceUids k) ∧
    (undoStep capOracle
        (moveStep capOracle (capRun10.1, capRun10.2) ⟨"d4", "e5", none⟩ 1000) 1000).1.board =
      capRun10.1.board ∧
    (∀ col, List.Perm ((undoStep capOracle
        (moveStep capOracle (capRun10.1, capRun10.2) ⟨"d4", "e5", none⟩ 1000) 1000).1.captured.get col)
      (capRun10.1.captured.get col)) ∧
    (undoStep capOracle
        (moveStep capOracle (capRun10.1, capRun10.2) ⟨"d4", "e5", none⟩ 1000) 1000).1.turn =
      capRun10.1.turn) :=
  ⟨by decide, by decide,
    c4_move_undo_roundtrip capOracle capRun10.1 capRun10.2 ⟨"d4", "e5", none⟩
      ⟨"d4", "e5", none, some .p, "c", .w⟩ 1000 (by decide) (by decide) (by decide)
      (by decide) (by decide) (by decide) (by decide) (by decide) (by decide) (by decide)
      (by decide)⟩

/-- The Captured Set after removing the first matching entry and appending the
    same piece type back is a permutation of the original, for each side. -/
theorem captured_unroundtrip (cp : Captured) (rc : Color) (c : PieceSymbol) (col : Color)
    (hmem : c ∈ cp.get rc) :
    List.Perm ((Captured.setAt (Captured.setAt cp rc
        (filterIdxNe (cp.get rc) (jsIndexOf (cp.get rc) c))) rc
      (((Captured.setAt cp rc (filterIdxNe (cp.get rc) (jsIndexOf (cp.get rc) c))).get rc)
        ++ [c])).get col)
      (cp.get col) := by
  have hremove : ∀ l, filterIdxNe l (jsIndexOf l c) = l.erase c :=
    fun l => jsRemoveFirst_eq_erase l c
  rw [hremove, Captured.get_setAt_self]
  by_cases hcol : col = rc
  · subst hcol
    rw [Captured.get_setAt_self]
    exact erase_append_singleton_perm _ _ hmem
  · rw [Captured.get_setAt_other _ _ _ _ hcol, Captured.get_setAt_other _ _ _ _ hcol]

/-- C5 amended: Redo immediately after Undo at the same instant reproduces the
    pre-Undo state in every component except the clocks, with the capturer's
    Captured Set preserved as a multiset, and restores the earlier redo entries. -/
theorem c5_undo_redo_roundtrip (o : Oracle) (s0 : ChessState) (stack' : List MoveRec)
    (rec : MoveRec) (ml' : List MoveRec) (tl : List MoveUID) (e : MoveUID) (t : Q)
    (hden : 0 < t.den)
    (hct : checkTimersStep o (rec :: stack') s0 t = s0)
    (hco : truthyS s0.complete = false)
    (hnb : ¬(truthyN s0.timers.w.set = true ∧ truthyN s0.timers.b.set = true))
    (hmv : s0.moves = some (ml' ++ [rec]))
    (htr : s0.pieceUidTracker = tl ++ [e])
    (huo : untrackOk s0.pieceUids rec e = true)
    (hcm2 : capMemOk s0 rec = true)
    (hre : o.moveOf stack' ⟨rec.from', rec.to', rec.promotion⟩ = some rec)
    (hpost : truthyS (getCompleteFlag o stack' false) = false)
    (hwt : 0 < s0.timers.w.time.num) (hbt : 0 < s0.timers.b.time.num)
    (hbd : s0.board = getBoard (o.boardOf (rec :: stack')) s0.pieceUids)
    (htn : s0.turn = o.turnOf (rec :: stack'))
    (hch : s0.check = Checks.setAt { w := false, b := false } (o.turnOf (rec :: stack'))
      (o.checkOf (rec :: stack')))
    (hcm : s0.complete = getCompleteFlag o (rec :: stack') false) :
    (redoStep o (undoStep o (s0, rec :: stack') t) t).2 = rec :: stack' ∧
    (redoStep o (undoStep o (s0, rec :: stack') t) t).1.moves = s0.moves ∧
    (∀ k, oget (redoStep o (undoStep o (s0, rec :: stack') t) t).1.pieceUids k =
      oget s0.pieceUids k) ∧
    (redoStep o (undoStep o (s0, rec :: stack') t) t).1.pieceUidTracker = s0.pieceUidTracker ∧
    (redoStep o (undoStep o (s0, rec :: stack') t) t).1.board = s0.board ∧
    (redoStep o (undoStep o (s0, rec :: stack') t) t).1.turn = s0.turn ∧
    (redoStep o (undoStep o (s0, rec :: stack') t) t).1.check = s0.check ∧
    (redoStep o (undoStep o (s0, rec :: stack') t) t).1.complete = s0.complete ∧
    (redoStep o (undoStep o (s0, rec :: stack') t) t).1.fen = s0.fen ∧
    (redoStep o (undoStep o (s0, rec :: stack') t) t).1.redoStack = s0.redoStack ∧
    (∀ col, List.Perm ((redoStep o (undoStep o (s0, rec :: stack') t) t).1.captured.get col)
      (s0.captured.get col)) ∧
    (redoStep o (undoStep o (s0, rec :: stack') t) t).1.paused = s0.paused ∧
    (redoStep o (undoStep o (s0, rec :: stack') t) t).1.players = s0.players := by
  cases hcapt : rec.captured with
  | none =>
    have hundo : undoStep o (s0, rec :: stack') t =
        (endMoveStep o stack'
          { s0 with
            moves := some ml'
            pieceUidTracker := tl
            pieceUids := untrackMove s0.pieceUids rec (some e)
            captured := s0.captured
            redoStack := s0.redoStack ++ [rec] } t, stack') := by
      unfold undoStep
      dsimp only
      rw [hct, hco, hmv]
      dsimp only
      rw [hcapt]
      dsimp only
      rw [htr, List.getLast?_concat, List.dropLast_concat, List.dropLast_concat]
      rfl
    rw [hundo]
    set sU : ChessState :=
      { s0 with
        moves := some ml'
        pieceUidTracker := tl
        pieceUids := untrackMove s0.pieceUids rec (some e)
        captured := s0.captured
        redoStack := s0.redoStack ++ [rec] } with hsU
    have hcs : chargeSafeP s0.timers t := ct_id_strict_guard o (rec :: stack') s0 t hct hco hnb
    have hem := endMove_timers_ok o stack' sU t hcs hwt hbt
    obtain ⟨hw2, hb2, hwt2, hbt2⟩ := hem
    set E1 : ChessState := endMoveStep o stack' sU t with hE1
    have hctr : checkTimersStep o stack' E1 t = E1 :=
      checkTimers_noop_same_time o stack' E1 t hden hw2 hb2 hwt2 hbt2
    have hc1 : truthyS E1.complete = false := hpost
    have hrs : E1.redoStack = s0.redoStack ++ [rec] := rfl
    unfold redoStep
    dsimp only
    rw [hctr, hc1]
    simp only [Bool.false_eq_true, if_false]
    rw [hrs, List.getLast?_concat, List.dropLast_concat]
    dsimp only
    have hctr2 : checkTimersStep o stack' { E1 with redoStack := s0.redoStack } t =
        { E1 with redoStack := s0.redoStack } :=
      checkTimers_noop_same_time o stack' { E1 with redoStack := s0.redoStack } t
        hden hw2 hb2 hwt2 hbt2
    have hc12 : truthyS ({ E1 with redoStack := s0.redoStack } : ChessState).complete = false :=
      hpost
    have hmove2 : moveStep o ({ E1 with redoStack := s0.redoStack }, stack')
        ⟨rec.from', rec.to', rec.promotion⟩ t =
        (endMoveStep o (rec :: stack')
          { E1 with
            redoStack := ([] : List MoveRec)
            pieceUids := (trackMove E1.pieceUids rec).1
            pieceUidTracker := E1.pieceUidTracker ++ [(trackMove E1.pieceUids rec).2]
            moves := some ((E1.moves.getD []) ++ [rec])
            captured := E1.captured } t, rec :: stack') := by
      unfold moveStep
      dsimp only
      rw [hctr2, hc12, hre]
      dsimp only
      rw [hcapt]
      rfl
    rw [hmove2]
    have hrec2 : (trackMove (untrackMove s0.pieceUids rec (some e)) rec).2 = e :=
      untrack_track_rec s0.pieceUids rec e huo
    refine ⟨rfl, ?_, ?_, ?_, ?_, ?_, ?_, ?_, rfl, rfl, ?_, rfl, rfl⟩
    · exact hmv.symm
    · exact fun k => untrack_track s0.pieceUids rec e huo k
    · show tl ++ [(trackMove (untrackMove s0.pieceUids rec (some e)) rec).2] =
        s0.pieceUidTracker
      rw [hrec2, ← htr]
    · exact (getBoard_congr (o.boardOf (rec :: stack'))
        (trackMove (untrackMove s0.pieceUids rec (some e)) rec).1 s0.pieceUids
        (untrack_track s0.pieceUids rec e huo)).trans hbd.symm
    · exact htn.symm
    · exact hch.symm
    · exact hcm.symm
    · exact fun col => List.Perm.refl _
  | some c =>
    have hundo : undoStep o (s0, rec :: stack') t =
        (endMoveStep o stack'
          { s0 with
            moves := some ml'
            pieceUidTracker := tl
            pieceUids := untrackMove s0.pieceUids rec (some e)
            captured := Captured.setAt s0.captured rec.color
                (filterIdxNe (s0.captured.get rec.color)
                  (jsIndexOf (s0.captured.get rec.color) c))
            redoStack := s0.redoStack ++ [rec] } t, stack') := by
      unfold undoStep
      dsimp only
      rw [hct, hco, hmv]
      dsimp only
      rw [hcapt]
      dsimp only
      rw [htr, List.getLast?_concat, List.dropLast_concat, List.dropLast_concat]
      rfl
    rw [hundo]
    set sU : ChessState :=
      { s0 with
        moves := some ml'
        pieceUidTracker := tl
        pieceUids := untrackMove s0.pieceUids rec (some e)
        captured := Captured.setAt s0.captured rec.color
                (filterIdxNe (s0.captured.get rec.color)
                  (jsIndexOf (s0.captured.get rec.color) c))
        redoStack := s0.redoStack ++ [rec] } with hsU
    have hcs : chargeSafeP s0.timers t := ct_id_strict_guard o (rec :: stack') s0 t hct hco hnb
    have hem := endMove_timers_ok o stack' sU t hcs hwt hbt
    obtain ⟨hw2, hb2, hwt2, hbt2⟩ := hem
    set E1 : ChessState := endMoveStep o stack' sU t with hE1
    have hctr : checkTimersStep o stack' E1 t = E1 :=
      checkTimers_noop_same_time o stack' E1 t hden hw2 hb2 hwt2 hbt2
    have hc1 : truthyS E1.complete = false := hpost
    have hrs : E1.redoStack = s0.redoStack ++ [rec] := rfl
    unfold redoStep
    dsimp only
    rw [hctr, hc1]
    simp only [Bool.false_eq_true, if_false]
    rw [hrs, List.getLast?_concat, List.dropLast_concat]
    dsimp only
    have hctr2 : checkTimersStep o stack' { E1 with redoStack := s0.redoStack } t =
        { E1 with redoStack := s0.redoStack } :=
      checkTimers_noop_same_time o stack' { E1 with redoStack := s0.redoStack } t
        hden hw2 hb2 hwt2 hbt2
    have hc12 : truthyS ({ E1 with redoStack := s0.redoStack } : ChessState).complete = false :=
      hpost
    have hmove2 : moveStep o ({ E1 with redoStack := s0.redoStack }, stack')
        ⟨rec.from', rec.to', rec.promotion⟩ t =
        (endMoveStep o (rec :: stack')
          { E1 with
            redoStack := ([] : List MoveRec)
            pieceUids := (trackMove E1.pieceUids rec).1
            pieceUidTracker := E1.pieceUidTracker ++ [(trackMove E1.pieceUids rec).2]
            moves := some ((E1.moves.getD []) ++ [rec])
            captured := Captured.setAt E1.captured rec.color ((E1.captured.get rec.color) ++ [c]) } t, rec :: stack') := by
      unfold moveStep
      dsimp only
      rw [hctr2, hc12, hre]
      dsimp only
      rw [hcapt]
      rfl
    rw [hmove2]
    have hrec2 : (trackMove (untrackMove s0.pieceUids rec (some e)) rec).2 = e :=
      untrack_track_rec s0.pieceUids rec e huo
    refine ⟨rfl, ?_, ?_, ?_, ?_, ?_, ?_, ?_, rfl, rfl, ?_, rfl, rfl⟩
    · exact hmv.symm
    · exact fun k => untrack_track s0.pieceUids rec e huo k
    · show tl ++ [(trackMove (untrackMove s0.pieceUids rec (some e)) rec).2] =
        s0.pieceUidTracker
      rw [hrec2, ← htr]
    · exact (getBoard_congr (o.boardOf (rec :: stack'))
        (trackMove (untrackMove s0.pieceUids rec (some e)) rec).1 s0.pieceUids
        (untrack_track s0.pieceUids rec e huo)).trans hbd.symm
    · exact htn.symm
    · exact hch.symm
    · exact hcm.symm
    · intro col
      have hmem : c ∈ s0.captured.get rec.color := by
        unfold capMemOk at hcm2
        rw [hcapt] at hcm2
        simpa using hcm2
      exact captured_unroundtrip s0.captured rec.color c col hmem

/-- C5 witness: the amended statement applied to undoing and redoing White's
    capture 6.dxe5 at the same instant. -/
theorem c5_witness :
    untrackOk capRun11.1.pieceUids (⟨"d4", "e5", none, some .p, "c", .w⟩ : MoveRec) { taken := some "12" } = true ∧
    capMemOk capRun11.1 (⟨"d4", "e5", none, some .p, "c", .w⟩ : MoveRec) = true ∧
    ((redoStep capOracle (undoStep capOracle (capRun11.1, (⟨"d4", "e5", none, some .p, "c", .w⟩ : MoveRec) :: capRun11.2.tail) 1000) 1000).2 = (⟨"d4", "e5", none, some .p, "c", .w⟩ : MoveRec) :: capRun11.2.tail ∧
    (redoStep capOracle (undoStep capOracle (capRun11.1, (⟨"d4", "e5", none, some .p, "c", .w⟩ : MoveRec) :: capRun11.2.tail) 1000) 1000).1.moves = capRun11.1.moves ∧
    (∀ k, oget (redoStep capOracle (undoStep capOracle (capRun11.1, (⟨"d4", "e5", none, some .p, "c", .w⟩ : MoveRec) :: capRun11.2.tail) 1000) 1000).1.pieceUids k = oget capRun11.1.pieceUids k) ∧
    (redoStep capOracle (undoStep capOracle (capRun11.1, (⟨"d4", "e5", none, some .p, "c", .w⟩ : MoveRec) :: capRun11.2.tail) 1000) 1000).1.pieceUidTracker = capRun11.1.pieceUidTracker ∧
    (redoStep capOracle (undoStep capOracle (capRun11.1, (⟨"d4", "e5", none, some .p, "c", .w⟩ : MoveRec) :: capRun11.2.tail) 1000) 1000).1.board = capRun11.1.board ∧
    (redoStep capOracle (undoStep capOracle (capRun11.1, (⟨"d4", "e5", none, some .p, "c", .w⟩ : MoveRec) :: capRun11.2.tail) 1000) 1000).1.turn = capRun11.1.turn ∧
    (redoStep capOracle (undoStep capOracle (capRun11.1, (⟨"d4", "e5", none, some .p, "c", .w⟩ : MoveRec) :: capRun11.2.tail) 1000) 1000).1.check = capRun11.1.check ∧
    (redoStep capOracle (undoStep capOracle (capRun11.1, (⟨"d4", "e5", none, some .p, "c", .w⟩ : MoveRec) :: capRun11.2.tail) 1000) 1000).1.complete = capRun11.1.complete ∧
    (redoStep capOracle (undoStep capOracle (capRun11.1, (⟨"d4", "e5", none, some .p, "c", .w⟩ : MoveRec) :: capRun11.2.tail) 1000) 1000).1.fen = capRun11.1.fen ∧
    (redoStep capOracle (undoStep capOracle (capRun11.1, (⟨"d4", "e5", none, some .p, "c", .w⟩ : MoveRec) :: capRun11.2.tail) 1000) 1000).1.redoStack = capRun11.1.redoStack ∧
    (∀ col, List.Perm ((redoStep capOracle (undoStep capOracle (capRun11.1, (⟨"d4", "e5", none, some .p, "c", .w⟩ : MoveRec) :: capRun11.2.tail) 1000) 1000).1.captured.get col) (capRun11.1.captured.get col)) ∧
    (redoStep capOracle (undoStep capOracle (capRun11.1, (⟨"d4", "e5", none, some .p, "c", .w⟩ : MoveRec) :: capRun11.2.tail) 1000) 1000).1.paused = capRun11.1.paused ∧
    (redoStep capOracle (undoStep capOracle (capRun11.1, (⟨"d4", "e5", none, some .p, "c", .w⟩ : MoveRec) :: capRun11.2.tail) 1000) 1000).1.players = capRun11.1.players) :=
  ⟨by decide, by decide,
    c5_undo_redo_roundtrip capOracle capRun11.1 capRun11.2.tail
      (⟨"d4", "e5", none, some .p, "c", .w⟩ : MoveRec) capGame.dropLast capRun11.1.pieceUidTracker.dropLast
      { taken := some "12" } 1000
      (by decide) (by decide) (by decide) (by decide) (by decide) (by decide) (by decide)
      (by decide) (by decide) (by decide) (by decide) (by decide) (by decide) (by decide)
      (by decide) (by decide)⟩

/- Timer safety through every transition. -/

/-- checkTimers preserves the clock-pair invariant. -/
theorem ct_timersOk (o : Oracle) (stack : List MoveRec) (s : ChessState) (now : Q)
    (hok : timersOk s.timers) : timersOk (checkTimersStep o stack s now).timers := by
  obtain ⟨h1, h2, h3, h4, h5, h6, h7⟩ := hok
  unfold checkTimersStep
  dsimp only
  cases hsel : (if truthyN s.timers.w.set then s.timers.w else s.timers.b).set with
  | none => exact ⟨h1, h2, h3, h4, h5, h6, h7⟩
  | some sv =>
    dsimp only
    cases hz : Q.isZero sv with
    | true =>
      rw [if_pos rfl]
      exact ⟨h1, h2, h3, h4, h5, h6, h7⟩
    | false =>
      rw [if_neg Bool.false_ne_true]
      cases hble : Q.ble ((if truthyN s.timers.w.set then s.timers.w else s.timers.b).time -
          (now - sv) / 1000) 0 with
      | false =>
        rw [if_neg Bool.false_ne_true]
        exact ⟨h1, h2, h3, h4, h5, h6, h7⟩
      | true =>
        rw [if_pos rfl]
        unfold timersOk
        dsimp only
        refine ⟨?_, ?_, ?_, ?_, fun v hv => Option.noConfusion hv,
          fun v hv => Option.noConfusion hv, ?_⟩
        · split
          · decide
          · exact h1
        · split
          · decide
          · exact h2
        · split
          · decide
          · exact h3
        · split
          · decide
          · exact h4
        · intro hcon
          exact absurd hcon.1 (by decide)

/-- When the time check leaves the completion flag falsy, it changed nothing and
    charging either side at the same instant is safe. -/
theorem ct_continue (o : Oracle) (stack : List MoveRec) (s : ChessState) (now : Q)
    (hok : timersOk s.timers)
    (hcont : truthyS (checkTimersStep o stack s now).complete = false) :
    checkTimersStep o stack s now = s ∧ chargeSafeP s.timers now := by
  obtain ⟨h1, h2, h3, h4, h5, h6, h7⟩ := hok
  unfold checkTimersStep at hcont ⊢
  dsimp only at hcont ⊢
  cases htw : truthyN s.timers.w.set with
  | true =>
    rw [htw] at hcont
    rw [if_pos rfl] at hcont ⊢
    cases hset : s.timers.w.set with
    | none =>
      rw [hset] at htw
      exact absurd htw (by decide)
    | some sv =>
      rw [hset] at hcont
      dsimp only at hcont ⊢
      cases hz : Q.isZero sv with
      | true =>
        rw [hz] at hcont
        rw [if_pos rfl] at hcont ⊢
        refine ⟨rfl, ?_, ?_⟩
        · intro v hv hz2
          rw [hset] at hv
          cases hv
          rw [hz] at hz2
          exact absurd hz2 (by decide)
        · intro v hv hz2
          have htb : truthyN s.timers.b.set = true := by
            rw [hv]
            simp [truthyN, hz2]
          exact absurd ⟨htw, htb⟩ h7
      | false =>
        rw [hz] at hcont
        rw [if_neg Bool.false_ne_true] at hcont ⊢
        cases hble : Q.ble (s.timers.w.time - (now - sv) / 1000) 0 with
        | false =>
          rw [hble] at hcont
          rw [if_neg Bool.false_ne_true] at hcont ⊢
          refine ⟨rfl, ?_, ?_⟩
          · intro v hv hz2
            rw [hset] at hv
            cases hv
            exact hble
          · intro v hv hz2
            have htb : truthyN s.timers.b.set = true := by
              rw [hv]
              simp [truthyN, hz2]
            exact absurd ⟨htw, htb⟩ h7
        | true =>
          rw [hble] at hcont
          rw [if_pos rfl] at hcont
          dsimp only at hcont
          rw [truthyS_getCompleteFlag_true] at hcont
          exact absurd hcont (by decide)
  | false =>
    rw [htw] at hcont
    rw [if_neg Bool.false_ne_true] at hcont ⊢
    cases hset : s.timers.b.set with
    | none =>
      rw [hset] at hcont
      refine ⟨rfl, ?_, ?_⟩
      · intro v hv hz2
        rw [hv] at htw
        simp [truthyN, hz2] at htw
      · intro v hv hz2
        rw [hset] at hv
        cases hv
    | some sv =>
      rw [hset] at hcont
      dsimp only at hcont ⊢
      cases hz : Q.isZero sv with
      | true =>
        rw [hz] at hcont
        rw [if_pos rfl] at hcont ⊢
        refine ⟨rfl, ?_, ?_⟩
        · intro v hv hz2
          rw [hv] at htw
          simp [truthyN, hz2] at htw
        · intro v hv hz2
          rw [hset] at hv
          cases hv
          rw [hz] at hz2
          exact absurd hz2 (by decide)
      | false =>
        rw [hz] at hcont
        rw [if_neg Bool.false_ne_true] at hcont ⊢
        cases hble : Q.ble (s.timers.b.time - (now - sv) / 1000) 0 with
        | false =>
          rw [hble] at hcont
          rw [if_neg Bool.false_ne_true] at hcont ⊢
          refine ⟨rfl, ?_, ?_⟩
          · intro v hv hz2
            rw [hv] at htw
            simp [truthyN, hz2] at htw
          · intro v hv hz2
            rw [hset] at hv
            cases hv
            exact hble
        | true =>
          rw [hble] at hcont
          rw [if_pos rfl] at hcont
          dsimp only at hcont
          rw [truthyS_getCompleteFlag_true] at hcont
          exact absurd hcont (by decide)

/-- A value strictly above zero: the falsity of the comparison against zero forces a
    positive numerator. -/
theorem q_ble_zero_false {x : Q} (h : Q.ble x 0 = false) : 0 < x.num := by
  have h0 : (0 : Q) = { num := 0, den := 1 } := rfl
  rw [h0] at h
  unfold Q.ble at h
  simp only [decide_eq_false_iff_not] at h
  omega

/-- The denominator produced by one elapsed-time charge is positive. -/
theorem charged_den_pos (t v now : Q) (ht : 0 < t.den) (hv : 0 < v.den)
    (hnow : 0 < now.den) : 0 < (t - (now - v) / 1000).den := by
  show 0 < t.den * (now.den * v.den * 1000)
  exact Nat.mul_pos ht (Nat.mul_pos (Nat.mul_pos hnow hv) (by decide))

/-- chargeTimer clears the timestamp and, when the charge is known safe, keeps the
    remaining time value-nonnegative with a positive denominator. -/
theorem chargeTimer_ok (tm : Timer) (now : Q)
    (h1 : 0 ≤ tm.time.num) (h2 : 0 < tm.time.den)
    (hd : ∀ v : Q, tm.set = some v → 0 < v.den)
    (hsafe : ∀ v : Q, tm.set = some v → Q.isZero v = false →
      Q.ble (tm.time - (now - v) / 1000) 0 = false)
    (hnow : 0 < now.den) :
    (chargeTimer tm now).set = none ∧ 0 ≤ (chargeTimer tm now).time.num ∧
      0 < (chargeTimer tm now).time.den := by
  unfold chargeTimer
  cases hset : tm.set with
  | none => exact ⟨rfl, h1, h2⟩
  | some sv =>
    dsimp only
    cases hz : Q.isZero sv with
    | true =>
      rw [if_pos rfl]
      exact ⟨rfl, h1, h2⟩
    | false =>
      rw [if_neg Bool.false_ne_true]
      refine ⟨rfl, ?_, ?_⟩
      · exact le_of_lt (q_ble_zero_false (hsafe sv hset hz))
      · exact charged_den_pos tm.time sv now h2 (hd sv hset) hnow

/-- endMove preserves the clock-pair invariant when charging is safe and the new
    timestamp is well formed. -/
theorem endMove_timersOk (o : Oracle) (stack : List MoveRec) (s : ChessState) (now : Q)
    (hok : timersOk s.timers) (hsafe : chargeSafeP s.timers now) (hnow : 0 < now.den) :
    timersOk (endMoveStep o stack s now).timers := by
  obtain ⟨h1, h2, h3, h4, h5, h6, h7⟩ := hok
  obtain ⟨hsw, hsb⟩ := hsafe
  unfold endMoveStep
  dsimp only
  by_cases ht : o.turnOf stack = Color.b
  · rw [if_pos ht]
    obtain ⟨cw1, cw2, cw3⟩ := chargeTimer_ok s.timers.w now h1 h2 h5 hsw hnow
    unfold timersOk
    dsimp only
    refine ⟨cw2, cw3, h3, h4, ?_, ?_, ?_⟩
    · intro v hv
      rw [cw1] at hv
      exact Option.noConfusion hv
    · intro v hv
      cases hv
      exact hnow
    · intro hc
      rw [cw1] at hc
      exact absurd hc.1 (by decide)
  · rw [if_neg ht]
    obtain ⟨cb1, cb2, cb3⟩ := chargeTimer_ok s.timers.b now h3 h4 h6 hsb hnow
    unfold timersOk
    dsimp only
    refine ⟨h1, h2, cb2, cb3, ?_, ?_, ?_⟩
    · intro v hv
      cases hv
      exact hnow
    · intro v hv
      rw [cb1] at hv
      exact Option.noConfusion hv
    · intro hc
      rw [cb1] at hc
      exact absurd hc.2 (by decide)

/-- The move transition preserves the clock-pair invariant. -/
theorem moveStep_timersOk (o : Oracle) (p : ChessState × List MoveRec) (inp : MoveInput)
    (now : Q) (hok : timersOk p.1.timers) (hnow : 0 < now.den) :
    timersOk (moveStep o p inp now).1.timers := by
  have hct := ct_timersOk o p.2 p.1 now hok
  unfold moveStep
  dsimp only
  cases hcomp : truthyS (checkTimersStep o p.2 p.1 now).complete with
  | true =>
    rw [if_pos rfl]
    exact hct
  | false =>
    rw [if_neg Bool.false_ne_true]
    obtain ⟨heq, hsafe⟩ := ct_continue o p.2 p.1 now hok hcomp
    rw [heq]
    cases hmv : o.moveOf p.2 inp with
    | none => exact hok
    | some rec =>
      dsimp only
      exact endMove_timersOk o (rec :: p.2) _ now hok hsafe hnow

/-- The undo transition preserves the clock-pair invariant. -/
theorem undoStep_timersOk (o : Oracle) (p : ChessState × List MoveRec) (now : Q)
    (hok : timersOk p.1.timers) (hnow : 0 < now.den) :
    timersOk (undoStep o p now).1.timers := by
  have hct := ct_timersOk o p.2 p.1 now hok
  unfold undoStep
  dsimp only
  cases hcomp : truthyS (checkTimersStep o p.2 p.1 now).complete with
  | true =>
    rw [if_pos rfl]
    exact hct
  | false =>
    rw [if_neg Bool.false_ne_true]
    obtain ⟨heq, hsafe⟩ := ct_continue o p.2 p.1 now hok hcomp
    rw [heq]
    cases hstack : p.2 with
    | nil => exact hok
    | cons rec stack2 =>
      dsimp only
      cases hmoves : p.1.moves with
      | none => exact hok
      | some ms =>
        dsimp only
        cases hcapt : rec.captured with
        | none =>
          dsimp only
          exact endMove_timersOk o stack2 _ now hok hsafe hnow
        | some c =>
          dsimp only
          exact endMove_timersOk o stack2 _ now hok hsafe hnow

/-- The redo transition preserves the clock-pair invariant. -/
theorem redoStep_timersOk (o : Oracle) (p : ChessState × List MoveRec) (now : Q)
    (hok : timersOk p.1.timers) (hnow : 0 < now.den) :
    timersOk (redoStep o p now).1.timers := by
  have hct := ct_timersOk o p.2 p.1 now hok
  unfold redoStep
  dsimp only
  cases hcomp : truthyS (checkTimersStep o p.2 p.1 now).complete with
  | true =>
    rw [if_pos rfl]
    exact hct
  | false =>
    rw [if_neg Bool.false_ne_true]
    obtain ⟨heq, _⟩ := ct_continue o p.2 p.1 now hok hcomp
    rw [heq]
    cases hlast : p.1.redoStack.getLast? with
    | none => exact hok
    | some rec =>
      dsimp only
      exact moveStep_timersOk o ({ p.1 with redoStack := p.1.redoStack.dropLast }, p.2) _ now hok hnow

/-- Every reducer action preserves the clock-pair invariant, given a well-formed
    action timestamp. -/
theorem chessReducer_timersOk (o : Oracle) (p : ChessState × List MoveRec) (a : ChessAction)
    (hok : timersOk p.1.timers)
    (hden : ∀ t : Q, actTime a = some t → 0 < t.den) :
    timersOk (chessReducer o p a).1.timers := by
  cases a with
  | move f t2 pr tm => exact moveStep_timersOk o p { from' := f, to' := t2, promotion := pr } tm hok (hden tm rfl)
  | undo tm => exact undoStep_timersOk o p tm hok (hden tm rfl)
  | redo tm => exact redoStep_timersOk o p tm hok (hden tm rfl)
  | pause t2 => exact hok
  | checkTimers tm => exact ct_timersOk o p.2 p.1 tm hok

/-- Running any list of well-timed actions preserves the clock-pair invariant. -/
theorem runActs_timersOk (o : Oracle) (acts : List ChessAction) :
    ∀ (p : ChessState × List MoveRec) (tau : Q), timersOk p.1.timers →
      timesMonoB tau acts = true → timersOk (runActs o p acts).1.timers := by
  induction acts with
  | nil =>
    intro p tau hok _
    exact hok
  | cons a rest ih =>
    intro p tau hok hmono
    have hstep : runActs o p (a :: rest) = runActs o (chessReducer o p a) rest := rfl
    rw [hstep]
    unfold timesMonoB at hmono
    cases hact : actTime a with
    | none =>
      rw [hact] at hmono
      dsimp only at hmono
      refine ih (chessReducer o p a) tau ?_ hmono
      refine chessReducer_timersOk o p a hok ?_
      intro t2 htt
      rw [hact] at htt
      exact Option.noConfusion htt
    | some t =>
      rw [hact] at hmono
      dsimp only at hmono
      rw [Bool.and_eq_true, Bool.and_eq_true] at hmono
      refine ih (chessReducer o p a) t ?_ hmono.2
      refine chessReducer_timersOk o p a hok ?_
      intro t2 htt
      rw [hact] at htt
      cases htt
      exact of_decide_eq_true hmono.1.2

/-- A prefix of a well-timed action list is well timed. -/
theorem timesMonoB_append_left (pre : List ChessAction) :
    ∀ (tau : Q) (suf : List ChessAction), timesMonoB tau (pre ++ suf) = true →
      timesMonoB tau pre = true := by
  induction pre with
  | nil =>
    intro tau suf _
    rfl
  | cons a rest ih =>
    intro tau suf h
    rw [List.cons_append] at h
    unfold timesMonoB at h ⊢
    cases hact : actTime a with
    | none =>
      rw [hact] at h
      dsimp only at h ⊢
      exact ih tau suf h
    | some t =>
      rw [hact] at h
      dsimp only at h ⊢
      rw [Bool.and_eq_true, Bool.and_eq_true] at h ⊢
      exact ⟨h.1, ih t suf h.2⟩

/-- The time check either leaves the state untouched or, on expiry, writes exactly
    zero into the side whose clock was running and keeps the other side's time. -/
theorem ct_clamp (o : Oracle) (stack : List MoveRec) (s : ChessState) (now : Q) :
    checkTimersStep o stack s now = s ∨
    ((checkTimersStep o stack s now).timers.w.time =
       (if truthyN s.timers.w.set then 0 else s.timers.w.time) ∧
     (checkTimersStep o stack s now).timers.b.time =
       (if truthyN s.timers.b.set then 0 else s.timers.b.time) ∧
     truthyS (checkTimersStep o stack s now).complete = true) := by
  unfold checkTimersStep
  dsimp only
  cases hsel : (if truthyN s.timers.w.set then s.timers.w else s.timers.b).set with
  | none => exact Or.inl rfl
  | some sv =>
    dsimp only
    cases hz : Q.isZero sv with
    | true =>
      rw [if_pos rfl]
      exact Or.inl rfl
    | false =>
      rw [if_neg Bool.false_ne_true]
      cases hble : Q.ble ((if truthyN s.timers.w.set then s.timers.w else s.timers.b).time -
          (now - sv) / 1000) 0 with
      | false =>
        rw [if_neg Bool.false_ne_true]
        exact Or.inl rfl
      | true =>
        rw [if_pos rfl]
        exact Or.inr ⟨rfl, rfl, truthyS_getCompleteFlag_true o stack⟩

/-- C9: from a fresh game with a well-formed clock length, running any action
    sequence whose timestamps are well formed and non-decreasing leaves, after every
    prefix, both stored remaining times value-nonnegative (nonnegative numerator
    over a positive denominator); moreover the time check either changes nothing or,
    on expiry, clamps the running side's remaining time to exactly zero while
    keeping the idle side's time. -/
theorem c9_stored_time_nonnegative (o : Oracle) (len tau now : Q) (pl : Players)
    (acts pre suf : List ChessAction) (stack : List MoveRec) (s : ChessState)
    (hlen : 0 ≤ len.num) (hlend : 0 < len.den)
    (hmono : timesMonoB tau acts = true) (hsplit : acts = pre ++ suf) :
    ((0 ≤ (runActs o (createChessState o len pl, []) pre).1.timers.w.time.num ∧
      0 < (runActs o (createChessState o len pl, []) pre).1.timers.w.time.den ∧
      0 ≤ (runActs o (createChessState o len pl, []) pre).1.timers.b.time.num ∧
      0 < (runActs o (createChessState o len pl, []) pre).1.timers.b.time.den) ∧
     (checkTimersStep o stack s now = s ∨
      ((checkTimersStep o stack s now).timers.w.time =
         (if truthyN s.timers.w.set then 0 else s.timers.w.time) ∧
       (checkTimersStep o stack s now).timers.b.time =
         (if truthyN s.timers.b.set then 0 else s.timers.b.time) ∧
       truthyS (checkTimersStep o stack s now).complete = true))) := by
  constructor
  · have hinit : timersOk (createChessState o len pl).timers := by
      rw [show (createChessState o len pl).timers =
          { w := { set := none, time := len * 60 }, b := { set := none, time := len * 60 } }
          from rfl]
      unfold timersOk
      dsimp only
      refine ⟨?_, ?_, ?_, ?_, fun v hv => Option.noConfusion hv,
        fun v hv => Option.noConfusion hv, fun hc => absurd hc.1 (by decide)⟩
      · show 0 ≤ len.num * 60
        exact Int.mul_nonneg hlen (by decide)
      · show 0 < len.den * 1
        omega
      · show 0 ≤ len.num * 60
        exact Int.mul_nonneg hlen (by decide)
      · show 0 < len.den * 1
        omega
    have hpre : timesMonoB tau pre = true := by
      rw [hsplit] at hmono
      exact timesMonoB_append_left pre tau suf hmono
    have h := runActs_timersOk o pre (createChessState o len pl, []) tau hinit hpre
    exact ⟨h.1, h.2.1, h.2.2.1, h.2.2.2.1⟩
  · exact ct_clamp o stack s now

/-- Witness instantiating the clock-safety theorem on a concrete game. -/
theorem c9_witness :
    0 ≤ (5 : Q).num ∧ 0 < (5 : Q).den ∧ timesMonoB 0 c9acts = true ∧
    c9acts = c9pre ++ c9suf ∧
    (((0 ≤ (runActs c9o (createChessState c9o 5 stdPlayers, []) c9pre).1.timers.w.time.num ∧
       0 < (runActs c9o (createChessState c9o 5 stdPlayers, []) c9pre).1.timers.w.time.den ∧
       0 ≤ (runActs c9o (createChessState c9o 5 stdPlayers, []) c9pre).1.timers.b.time.num ∧
       0 < (runActs c9o (createChessState c9o 5 stdPlayers, []) c9pre).1.timers.b.time.den) ∧
      (checkTimersStep c9o [] c9s0 2000 = c9s0 ∨
       ((checkTimersStep c9o [] c9s0 2000).timers.w.time =
          (if truthyN c9s0.timers.w.set then 0 else c9s0.timers.w.time) ∧
        (checkTimersStep c9o [] c9s0 2000).timers.b.time =
          (if truthyN c9s0.timers.b.set then 0 else c9s0.timers.b.time) ∧
        truthyS (checkTimersStep c9o [] c9s0 2000).complete = true)))) :=
  ⟨by decide, by decide, by decide, rfl,
    c9_stored_time_nonnegative c9o 5 0 2000 stdPlayers c9acts c9pre c9suf [] c9s0
      (by decide) (by decide) (by decide) rfl⟩
